import Mathlib

/-!
Verification of the iroh data-layer specification against a shallow
embedding of the behaviour pinned down by the repository's Python test
harness (src/python) and the natural-language specification.  The core
implementation (Rust) is not part of this corpus, so the definitions
below are modelled from the spec and from the concrete behaviour the
tests assert; each such definition says so in its doc comment.
-/

/-- Byte sequences are lists of naturals; a well-formed byte is < 256. -/
abbrev Bytes := List Nat

/- ### Base32 text encoding (RFC 4648 lower-case, no padding)

Modelled from the spec: "self-describing lowercase base32-like string";
the concrete test vectors (blob_test.py test_hash, key_test.py) match
RFC 4648 base32, lower case, without padding. -/

/-- Alphabet of the lowercase base32 encoding used for hashes and ids. -/
def base32Alphabet : List Char := "abcdefghijklmnopqrstuvwxyz234567".toList

/-- Character for a 5-bit group value. -/
def quintChar (n : Nat) : Char := base32Alphabet.getD n 'a'

/-- Index of a character in the alphabet, searching from position i. -/
def charQuintAux : List Char → Nat → Char → Option Nat
  | [], _, _ => none
  | a :: rest, i, c => if a = c then some i else charQuintAux rest (i + 1) c

/-- Index of a character in the base32 alphabet, if present. -/
def charQuint (c : Char) : Option Nat := charQuintAux base32Alphabet 0 c

/-- Bits of one byte, most significant first. -/
def byteToBits (n : Nat) : List Bool :=
  [n / 128 % 2 == 1, n / 64 % 2 == 1, n / 32 % 2 == 1, n / 16 % 2 == 1,
   n / 8 % 2 == 1, n / 4 % 2 == 1, n / 2 % 2 == 1, n % 2 == 1]

/-- Bits of one 5-bit group, most significant first. -/
def quintToBits (n : Nat) : List Bool :=
  [n / 16 % 2 == 1, n / 8 % 2 == 1, n / 4 % 2 == 1, n / 2 % 2 == 1, n % 2 == 1]

/-- Value of a big-endian bit string. -/
def bitsVal (l : List Bool) : Nat := l.foldl (fun a b => 2 * a + b.toNat) 0

/-- Split a bit string into groups of five (a short final group only
    occurs on inputs whose length is not a multiple of five). -/
def chunk5 : List Bool → List (List Bool)
  | a :: b :: c :: d :: e :: rest => [a, b, c, d, e] :: chunk5 rest
  | [] => []
  | l => [l]

/-- Split a bit string into groups of eight. -/
def chunk8 : List Bool → List (List Bool)
  | a :: b :: c :: d :: e :: f :: g :: h :: rest =>
      [a, b, c, d, e, f, g, h] :: chunk8 rest
  | [] => []
  | l => [l]

/-- Pad a bit string with zero bits to a multiple of five. -/
def padBits (bits : List Bool) : List Bool :=
  bits ++ List.replicate ((5 - bits.length % 5) % 5) false

/-- Base32 encoding of a byte sequence: regroup the bits into 5-bit
    groups (zero-padded) and map each group to its alphabet character. -/
def base32Encode (bs : Bytes) : List Char :=
  (chunk5 (padBits (bs.flatMap byteToBits))).map (fun g => quintChar (bitsVal g))

/-- Decode every character of a string to its 5-bit group value. -/
def decodeChars : List Char → Option (List Nat)
  | [] => some []
  | c :: rest =>
    match charQuint c, decodeChars rest with
    | some q, some qs => some (q :: qs)
    | _, _ => none

/-- Base32 decoding: map characters back to 5-bit groups, reassemble the
    bit string, reject non-canonical lengths and nonzero padding bits,
    and regroup into bytes. -/
def base32Decode (s : List Char) : Option Bytes :=
  match decodeChars s with
  | none => none
  | some quints =>
    let bits := quints.flatMap quintToBits
    let nbytes := 5 * s.length / 8
    if 5 * s.length - 8 * nbytes ≥ 5 then none
    else if (bits.drop (8 * nbytes)).any (fun b => b) then none
    else some ((chunk8 (bits.take (8 * nbytes))).map bitsVal)

/- ### Identifier types -/

/-- Modelled from the spec: a Hash is a 32-byte digest with equality by
    byte value, binary encoding the raw bytes, text encoding base32. -/
structure Hash where
  bytes : Bytes
deriving DecidableEq, Repr

/-- Construct a hash from its raw bytes (blob_test.py Hash.from_bytes). -/
def Hash.fromBytes (bs : Bytes) : Hash := ⟨bs⟩

/-- Binary encoding of a hash: exactly its raw bytes. -/
def Hash.toBytes (h : Hash) : Bytes := h.bytes

/-- Text encoding of a hash: base32 of the raw bytes. -/
def Hash.toString (h : Hash) : List Char := base32Encode h.bytes

/-- Parse a hash from its text encoding. -/
def Hash.fromString (s : List Char) : Option Hash :=
  (base32Decode s).map Hash.mk

/-- Equality test on hashes (blob_test.py hash.equal). -/
def Hash.equal (a b : Hash) : Bool := a.bytes == b.bytes

/-- Modelled from the spec: AuthorId is a 32-byte public-key-derived
    identifier with the same base32 text encoding as hashes. -/
structure AuthorId where
  bytes : Bytes
deriving DecidableEq, Repr

/-- Parse an author id from its base32 string (doc_test.py). -/
def AuthorId.fromString (s : List Char) : Option AuthorId :=
  (base32Decode s).map AuthorId.mk

/-- Text encoding of an author id. -/
def AuthorId.toString (a : AuthorId) : List Char := base32Encode a.bytes

/-- Equality test on author ids. -/
def AuthorId.equal (a b : AuthorId) : Bool := a.bytes == b.bytes

/-- Modelled from the spec: NamespaceId is a 32-byte identifier of a
    document, text-encoded like hashes. -/
structure NamespaceId where
  bytes : Bytes
deriving DecidableEq, Repr

/-- Parse a namespace id from its base32 string (doc_test.py). -/
def NamespaceId.fromString (s : List Char) : Option NamespaceId :=
  (base32Decode s).map NamespaceId.mk

/-- Text encoding of a namespace id. -/
def NamespaceId.toString (n : NamespaceId) : List Char := base32Encode n.bytes

/-- Equality test on namespace ids. -/
def NamespaceId.equal (a b : NamespaceId) : Bool := a.bytes == b.bytes

/-- Modelled from the spec: a DocTicket is an opaque versioned
    capability bundle; its text encoding is the literal "doc" followed
    by the base32 encoding of the (opaque) binary payload, and it must
    round-trip byte-for-byte through its own parser. -/
structure DocTicket where
  payload : Bytes
deriving DecidableEq, Repr

/-- Parse a doc ticket from its text encoding. -/
def DocTicket.fromString (s : List Char) : Option DocTicket :=
  match s with
  | 'd' :: 'o' :: 'c' :: rest => (base32Decode rest).map DocTicket.mk
  | _ => none

/-- Text encoding of a doc ticket. -/
def DocTicket.toString (t : DocTicket) : List Char :=
  'd' :: 'o' :: 'c' :: base32Encode t.payload

/-- Equality test on doc tickets. -/
def DocTicket.equal (a b : DocTicket) : Bool := a.payload == b.payload

/-- Modelled from the tests: a Tag is a named pin on a hash; its value
    is a byte string (tag_test.py). -/
structure Tag where
  bytes : Bytes
deriving DecidableEq, Repr

/-- Construct a tag from raw bytes (tag_test.py Tag.from_bytes). -/
def Tag.fromBytes (bs : Bytes) : Tag := ⟨bs⟩

/-- Raw bytes of a tag. -/
def Tag.toBytes (t : Tag) : Bytes := t.bytes

/-- Construct a tag from a string: the tag's bytes are the string's
    characters (tag_test.py Tag.from_string("foo").to_bytes() == b'foo'). -/
def Tag.fromString (s : List Char) : Tag := ⟨s.map Char.toNat⟩

/-- Display a tag: the debug rendering of its bytes as a quoted string
    (tag_test.py Tag.from_string("foo").to_string() == "\"foo\""). -/
def Tag.toString (t : Tag) : List Char :=
  '"' :: t.bytes.map Char.ofNat ++ ['"']

/-- Equality test on tags (tag_test.py tag.equal). -/
def Tag.equal (a b : Tag) : Bool := a.bytes == b.bytes

/- ### Document entries and the per-slot merge (spec 3, 4.3)

Modelled from the spec: an Entry is (author, key, content_hash,
content_len, timestamp); the namespace is implicit (one document).
A new write for the same (author, key) supersedes the stored entry iff
its timestamp is strictly greater, ties broken by the lexicographically
greater content hash. -/

/-- Document entry for one namespace. -/
structure Entry where
  author : Bytes
  key : Bytes
  contentHash : Bytes
  contentLen : Nat
  timestamp : Nat
deriving DecidableEq, Repr

/-- Lexicographic strict order on byte strings (shorter is smaller when
    one is a proper initial segment of the other). -/
def bytesLt : Bytes → Bytes → Bool
  | [], [] => false
  | [], _ :: _ => true
  | _ :: _, [] => false
  | a :: as, b :: bs => if a < b then true else if b < a then false else bytesLt as bs

/-- Supersession test (spec 4.3): the incoming entry n beats the stored
    entry o iff n's timestamp is strictly greater, or the timestamps tie
    and n's content hash is lexicographically greater. -/
def supersedes (n o : Entry) : Bool :=
  o.timestamp < n.timestamp ||
    (o.timestamp == n.timestamp && bytesLt o.contentHash n.contentHash)

/-- Merge function of the per-(author,key) register (spec 9): of two
    candidate entries, return the winner under the supersession rule;
    on a full tie the first argument is kept. -/
def mergeEntries (a b : Entry) : Entry :=
  if supersedes b a then b else a

/-- Slot test: does entry e occupy slot (a, k)? -/
def slotIs (e : Entry) (a k : Bytes) : Bool :=
  e.author == a && e.key == k

/-- Insert a (locally written or remotely received) entry into the entry
    table: merge with the stored entry of the same slot if present,
    otherwise append. -/
def insertEntry (st : List Entry) (e : Entry) : List Entry :=
  if st.any (fun o => slotIs o e.author e.key) then
    st.map (fun o => if slotIs o e.author e.key then mergeEntries o e else o)
  else
    st ++ [e]

/-- Stored entry of a slot, if any. -/
def slotLookup (st : List Entry) (a k : Bytes) : Option Entry :=
  st.find? (fun e => slotIs e a k)

/-- Number of stored entries occupying a slot. -/
def slotCount (st : List Entry) (a k : Bytes) : Nat :=
  (st.filter (fun e => slotIs e a k)).length

/-- Invariant: the entry table holds at most one entry per slot. -/
def SlotNodup (st : List Entry) : Prop :=
  List.Pairwise (fun x y => ¬(x.author = y.author ∧ x.key = y.key)) st

/-- Content addressing assumption on a set of entries: the content hash
    determines the content length (two entries with the same digest have
    the same payload). -/
def ContentAddressed (l : List Entry) : Prop :=
  ∀ e1 ∈ l, ∀ e2 ∈ l, e1.contentHash = e2.contentHash → e1.contentLen = e2.contentLen

/-- Current entry of a slot in a replica that has received the entries
    of l (in that order): fold the merge function over the slot's
    entries. -/
def currentEntry (l : List Entry) (a k : Bytes) : Option Entry :=
  (l.filter (fun e => slotIs e a k)).foldl
    (fun acc e =>
      match acc with
      | none => some e
      | some x => some (mergeEntries x e)) none

/-- Modelled from the spec: the content-addressed digest (BLAKE3 in the
    implementation) is collision-free for the reasoning here; modelled
    as an injective function of the payload. -/
def hashOf (v : Bytes) : Bytes := v

/-- Document state: the entry table, the backing blob store (hash to
    payload), and the author's local clock (spec 4.3: timestamps are
    monotonically increasing, they never regress). -/
structure DocState where
  entries : List Entry
  blobs : List (Bytes × Bytes)
  clock : Nat
deriving Repr

/-- Empty document. -/
def emptyDoc : DocState := ⟨[], [], 0⟩

/-- Write a value under (author, key) (spec 4.3 set_bytes): store the
    payload in the blob store and insert the entry with a fresh, strictly
    larger timestamp. -/
def setBytes (st : DocState) (author key value : Bytes) : DocState :=
  let ts := st.clock + 1
  let e : Entry := ⟨author, key, hashOf value, value.length, ts⟩
  ⟨insertEntry st.entries e, (hashOf value, value) :: st.blobs, ts⟩

/-- Read a blob back by hash (doc_test.py doc.read_to_bytes). -/
def readToBytes (st : DocState) (h : Bytes) : Option Bytes :=
  (st.blobs.find? (fun p => p.1 == h)).map (fun p => p.2)

/-- Invariant: every stored timestamp is bounded by the local clock. -/
def ClockBound (st : DocState) : Prop :=
  ∀ e ∈ st.entries, e.timestamp ≤ st.clock

/- ### Query engine (spec 3, 4.4) -/

/-- Sort key choice of a query. -/
inductive SortBy
  | keyAuthor
  | authorKey
deriving DecidableEq, Repr

/-- Sort direction of a query. -/
inductive SortDirection
  | asc
  | desc
deriving DecidableEq, Repr

/-- Options record passed to the query builders (doc_test.py
    QueryOptions(sort_by, direction, offset, limit)); limit is a plain
    integer, there is no separate "absent" state. -/
structure QueryOptions where
  sortBy : SortBy
  direction : SortDirection
  offset : Nat
  limit : Nat
deriving DecidableEq, Repr

/-- Filter of a query (spec 3). -/
inductive QueryFilter
  | all
  | author (a : Bytes)
  | keyExact (k : Bytes)
  | keyPfx (p : Bytes)
  | authorKeyExact (a k : Bytes)
deriving DecidableEq, Repr

/-- Built query. -/
structure Query where
  filter : QueryFilter
  sortBy : SortBy
  direction : SortDirection
  offset : Nat
  limit : Option Nat
  latestPerKey : Bool
deriving DecidableEq, Repr

/-- Modelled from the tests: the query builders translate a numeric
    limit of 0 in QueryOptions to an unbounded query (doc_test.py
    test_query: opts.limit = 0 gives query.limit() == None). -/
def ofOptsLimit (n : Nat) : Option Nat :=
  if n = 0 then none else some n

/-- Build a query over all entries (doc_test.py Query.all). -/
def Query.all (o : QueryOptions) : Query :=
  ⟨.all, o.sortBy, o.direction, o.offset, ofOptsLimit o.limit, false⟩

/-- Build a query collapsing to the latest entry per key (doc_test.py
    Query.single_latest_per_key). -/
def Query.singleLatestPerKey (o : QueryOptions) : Query :=
  ⟨.all, o.sortBy, o.direction, o.offset, ofOptsLimit o.limit, true⟩

/-- Build a query over one author's entries (doc_test.py Query.author). -/
def Query.author (a : Bytes) (o : QueryOptions) : Query :=
  ⟨.author a, o.sortBy, o.direction, o.offset, ofOptsLimit o.limit, false⟩

/-- Build a query for one exact key (doc_test.py Query.key_exact). -/
def Query.keyExact (k : Bytes) (o : QueryOptions) : Query :=
  ⟨.keyExact k, o.sortBy, o.direction, o.offset, ofOptsLimit o.limit, false⟩

/-- Build a query for a key prefix (doc_test.py Query.key_prefix). -/
def Query.keyPfx (p : Bytes) (o : QueryOptions) : Query :=
  ⟨.keyPfx p, o.sortBy, o.direction, o.offset, ofOptsLimit o.limit, false⟩

/-- Build a query for one (author, key) slot (doc_test.py
    Query.author_key_exact). -/
def Query.authorKeyExact (a k : Bytes) : Query :=
  ⟨.authorKeyExact a k, .keyAuthor, .asc, 0, none, false⟩

/-- Does an entry pass a query's filter? -/
def matchesFilter (f : QueryFilter) (e : Entry) : Bool :=
  match f with
  | .all => true
  | .author a => e.author == a
  | .keyExact k => e.key == k
  | .keyPfx p => p.isPrefixOf e.key
  | .authorKeyExact a k => slotIs e a k

/-- Collapse multiple authors' entries for the same key to the single
    most recent one, with the supersession tie-break (spec 4.4). -/
def dedupLatest (l : List Entry) : List Entry :=
  l.foldl
    (fun acc e =>
      if acc.any (fun o => o.key == e.key) then
        acc.map (fun o => if o.key == e.key then mergeEntries o e else o)
      else
        acc ++ [e]) []

/-- Comparator of a query's sort order: lexicographic on (key, author)
    or (author, key), descending queries flip the comparator. -/
def entryLe (q : Query) (a b : Entry) : Bool :=
  let le := fun x y : Entry =>
    match q.sortBy with
    | .keyAuthor => !(bytesLt y.key x.key) && (bytesLt x.key y.key || !(bytesLt y.author x.author))
    | .authorKey => !(bytesLt y.author x.author) && (bytesLt x.author y.author || !(bytesLt y.key x.key))
  match q.direction with
  | .asc => le a b
  | .desc => le b a

/-- Insert into a list sorted by le. -/
def insSorted (le : Entry → Entry → Bool) (e : Entry) : List Entry → List Entry
  | [] => [e]
  | x :: xs => if le e x then e :: x :: xs else x :: insSorted le e xs

/-- Insertion sort by le. -/
def sortEntries (le : Entry → Entry → Bool) (l : List Entry) : List Entry :=
  l.foldr (insSorted le) []

/-- Matches of a query before pagination (spec 4.4): apply the filter,
    then the dedup policy. -/
def queryMatches (st : List Entry) (q : Query) : List Entry :=
  if q.latestPerKey then dedupLatest (st.filter (matchesFilter q.filter))
  else st.filter (matchesFilter q.filter)

/-- Execute a query (spec 4.4): filter, dedup, sort, then apply offset
    and limit; an absent limit means unbounded. -/
def runQuery (st : List Entry) (q : Query) : List Entry :=
  let m := sortEntries (entryLe q) (queryMatches st q)
  let m := m.drop q.offset
  match q.limit with
  | none => m
  | some l => m.take l

/- ### Blob store, collections, tags and garbage collection (spec 4.1, 4.2)

Modelled from the spec and blob_test.py: a directory import creates one
RAW blob per file, one collection-metadata blob, and one HASH_SEQ root
blob whose member list is the metadata hash followed by the file hashes
(blob_test.py test_blob_collections observes exactly these: N files give
total_blobs_count == N + 1 and len(list()) == N + 2). -/

/-- Blob format (spec 3). -/
inductive BlobFormat
  | raw
  | hashSeq
deriving DecidableEq, Repr

/-- Stored blob: content hash, format, payload, and — for HASH_SEQ
    blobs — the member hashes the payload enumerates. -/
structure Blob where
  hash : Bytes
  format : BlobFormat
  content : Bytes
  members : List Bytes
deriving DecidableEq, Repr

/-- Collection listing row (blob_test.py list_collections()). -/
structure CollectionInfo where
  hash : Bytes
  totalBlobsCount : Nat
deriving DecidableEq, Repr

/-- State of the blob store: complete blobs, tags (name to hash), and
    the content hashes referenced by live document entries. -/
structure BlobState where
  blobs : List Blob
  tags : List (Bytes × Bytes)
  entryRefs : List Bytes
deriving Repr

/-- Modelled from the spec: the digest of a RAW blob; injective in the
    payload and disjoint from the digests of the derived blobs below. -/
def rawBlobHash (v : Bytes) : Bytes := 0 :: v

/-- Stored RAW blob of one imported file. -/
def fileBlob (v : Bytes) : Blob := ⟨rawBlobHash v, .raw, v, []⟩

/-- Modelled from the spec and blob_test.py: the collection-metadata
    blob a directory import writes alongside the HASH_SEQ root. -/
def metaBlobOf (fileHashes : List Bytes) : Blob :=
  ⟨1 :: fileHashes.flatten, .raw, fileHashes.flatten, []⟩

/-- HASH_SEQ root blob enumerating the given member hashes. -/
def rootBlobOf (members : List Bytes) : Blob :=
  ⟨2 :: members.flatten, .hashSeq, members.flatten, members⟩

/-- Collection-metadata blob a directory import creates. -/
def importedMeta (files : List Bytes) : Blob :=
  metaBlobOf (files.map rawBlobHash)

/-- HASH_SEQ root blob a directory import creates: its member list is
    the metadata hash followed by the file hashes. -/
def importedRoot (files : List Bytes) : Blob :=
  rootBlobOf ((importedMeta files).hash :: files.map rawBlobHash)

/-- Import a directory of files (spec 4.1 add_from_path on a directory):
    one RAW blob per file, the collection-metadata blob, and the HASH_SEQ
    root blob, which is tagged (tagged as the collection root). -/
def importDir (st : BlobState) (files : List Bytes) (tagName : Bytes) : BlobState :=
  { st with
    blobs := st.blobs ++ files.map fileBlob ++ [importedMeta files, importedRoot files]
    tags := st.tags ++ [(tagName, (importedRoot files).hash)] }

/-- Hashes of the stored complete blobs (blob_test.py list()). -/
def listHashes (st : BlobState) : List Bytes :=
  st.blobs.map (fun b => b.hash)

/-- Format test used by the collection listing. -/
def isHashSeq (b : Blob) : Bool :=
  match b.format with
  | .hashSeq => true
  | .raw => false

/-- Collection listing (blob_test.py list_collections()):
    total_blobs_count is the number of members the root enumerates. -/
def listCollections (st : BlobState) : List CollectionInfo :=
  (st.blobs.filter isHashSeq).map (fun b => ⟨b.hash, b.members.length⟩)

/-- Root set of the garbage collector (spec 4.2): all tagged hashes and
    all content hashes referenced by document entries. -/
def gcRoots (st : BlobState) : List Bytes :=
  st.tags.map (fun t => t.2) ++ st.entryRefs

/-- Member hashes contributed by a stored HASH_SEQ blob with hash h. -/
def membersOf (st : BlobState) (h : Bytes) : List Bytes :=
  (st.blobs.filter (fun b => b.hash == h)).flatMap (fun b => b.members)

/-- One expansion step of the reachability walk. -/
def reachStep (st : BlobState) (hs : List Bytes) : List Bytes :=
  hs ++ hs.flatMap (membersOf st)

/-- Iterated expansion of the reachability walk. -/
def reachIter (st : BlobState) : Nat → List Bytes
  | 0 => gcRoots st
  | n + 1 => reachStep st (reachIter st n)

/-- Hashes reachable from the GC roots, expanding HASH_SEQ members;
    fueled by the number of stored blobs, which bounds the closure depth
    and keeps the walk cycle-tolerant (spec 9). -/
def reachableHashes (st : BlobState) : List Bytes :=
  reachIter st st.blobs.length

/-- One background GC sweep (spec 4.2): delete every stored blob whose
    hash is not reachable from the root set. -/
def gcSweep (st : BlobState) : BlobState :=
  { st with blobs := st.blobs.filter (fun b => (reachableHashes st).contains b.hash) }

/-- Delete a tag by name (blob_test.py tags().delete). -/
def deleteTag (st : BlobState) (name : Bytes) : BlobState :=
  { st with tags := st.tags.filter (fun t => !(t.1 == name)) }

/-- Is the blob with hash h readable (present and complete)? -/
def blobReadable (st : BlobState) (h : Bytes) : Bool :=
  st.blobs.any (fun b => b.hash == h)

/- ### Gossip layer (spec 4.5)

Modelled from the spec: one sender A and one receiver B on a topic; B's
view holds its neighbour flag towards A, the queue of A's broadcasts not
yet delivered (per-sender FIFO), the log of everything A broadcast, and
the trace of events delivered at B, oldest first. -/

/-- Event delivered to a gossip subscriber (spec 4.5). -/
inductive GEvent
  | joined
  | neighborUp (peer : Bytes)
  | neighborDown (peer : Bytes)
  | received (content deliveredFrom : Bytes)
deriving DecidableEq, Repr

/-- Receiver-side view of the gossip session with one sender. -/
structure GossipView where
  neighbor : Bool
  pending : List Bytes
  sent : List Bytes
  trace : List GEvent
deriving DecidableEq, Repr

/-- Initial view: not yet a neighbour, nothing broadcast or delivered. -/
def gossipInit : GossipView := ⟨false, [], [], []⟩

/-- Modelled from the spec: the transitions of the gossip session.
    up/down maintain swarm membership and emit the membership events;
    broadcast appends the message to the sender log and to the FIFO
    delivery queue; deliver hands the queue's head to the subscriber as
    a Received event carrying the sender's id. -/
inductive GossipStep (a : Bytes) : GossipView → GossipView → Prop
  | up (s : GossipView) :
      s.neighbor = false →
      GossipStep a s ⟨true, s.pending, s.sent, s.trace ++ [.neighborUp a]⟩
  | down (s : GossipView) :
      s.neighbor = true →
      GossipStep a s ⟨false, s.pending, s.sent, s.trace ++ [.neighborDown a]⟩
  | broadcast (s : GossipView) (m : Bytes) :
      GossipStep a s ⟨s.neighbor, s.pending ++ [m], s.sent ++ [m], s.trace⟩
  | deliver (s : GossipView) (m : Bytes) (rest : List Bytes) :
      s.neighbor = true →
      s.pending = m :: rest →
      GossipStep a s ⟨true, rest, s.sent, s.trace ++ [.received m a]⟩

/-- Messages delivered at the receiver as coming from sender a, in
    trace order. -/
def receivedFrom (a : Bytes) (tr : List GEvent) : List Bytes :=
  tr.filterMap (fun ev =>
    match ev with
    | .received m p => if p == a then some m else none
    | _ => none)

/-- Is this event a NeighborUp for sender a? -/
def isUpFor (a : Bytes) (ev : GEvent) : Bool :=
  match ev with
  | .neighborUp p => p == a
  | _ => false

/-- Is this event a Received from sender a? -/
def isRecvFrom (a : Bytes) (ev : GEvent) : Bool :=
  match ev with
  | .received _ p => p == a
  | _ => false

/-- Scan of a trace checking that every Received from a is preceded by
    some NeighborUp for a; seen records whether one was already passed. -/
def upBeforeRecv (a : Bytes) : List GEvent → Bool → Bool
  | [], _ => true
  | ev :: rest, seen =>
      (!(isRecvFrom a ev) || seen) && upBeforeRecv a rest (seen || isUpFor a ev)

/- ### Authors (author_test.py, spec 3)

Modelled from the spec and author_test.py: a node with documents
enabled is created with one (default) author; authors can be created,
listed, exported as a capability-bearing secret, deleted, and imported
back. -/

/-- Exported author: the capability-bearing secret; id() recovers the
    author id it was exported from. -/
structure Author where
  authorId : Bytes
deriving DecidableEq, Repr

/-- Author id of an exported author (author_test.py author.id()). -/
def Author.id (a : Author) : Bytes := a.authorId

/-- Author registry of one node. -/
structure AuthorsState where
  authors : List Bytes
deriving DecidableEq, Repr

/-- Modelled from author_test.py: creating a node also creates an
    author, so a fresh node's registry holds exactly the default
    author. -/
def freshNodeAuthors (defaultId : Bytes) : AuthorsState := ⟨[defaultId]⟩

/-- Create a new author with a freshly generated id (author_test.py
    authors().create()). -/
def createAuthor (st : AuthorsState) (newId : Bytes) : AuthorsState :=
  ⟨st.authors ++ [newId]⟩

/-- Export an author by id (author_test.py authors().export). -/
def exportAuthor (st : AuthorsState) (aid : Bytes) : Option Author :=
  if st.authors.contains aid then some ⟨aid⟩ else none

/-- Delete an author by id (author_test.py authors().delete). -/
def deleteAuthor (st : AuthorsState) (aid : Bytes) : AuthorsState :=
  ⟨st.authors.filter (fun x => !(x == aid))⟩

/-- Import an exported author back into the node (author_test.py
    authors().import_author). -/
def importAuthor (st : AuthorsState) (a : Author) : AuthorsState :=
  if st.authors.contains a.id then st else ⟨st.authors ++ [a.id]⟩

/-- List the authors known to the node (author_test.py authors().list). -/
def listAuthors (st : AuthorsState) : List Bytes := st.authors

/- ### Path to key encoding (spec 6, lib_test.py)

Modelled from the spec: the key is prefix + relative_path_under_root
(or the absolute path if no root) + NUL byte; recovering the path strips
the prefix and the trailing NUL and resolves relative to the root. -/

/-- Encode a filesystem path as a document key (lib_test.py
    path_to_key). -/
def pathToKey (path : List Char) (pfx : Option (List Char)) (root : Option (List Char)) : List Nat :=
  let rel :=
    match root with
    | some r => if (r ++ ['/']).isPrefixOf path then path.drop (r.length + 1) else path
    | none => path
  ((pfx.getD []) ++ rel).map Char.toNat ++ [0]

/-- Decode a document key back to a filesystem path (lib_test.py
    key_to_path): strip the trailing NUL and the prefix, then resolve
    under the root if one is given. -/
def keyToPath (key : List Nat) (pfx : Option (List Char)) (root : Option (List Char)) : Option (List Char) :=
  match key.getLast? with
  | some 0 =>
    let body := key.dropLast
    let p := (pfx.getD []).map Char.toNat
    if p.isPrefixOf body then
      let rel := (body.drop p.length).map Char.ofNat
      some (match root with
            | some r => r ++ '/' :: rel
            | none => rel)
    else none
  | _ => none

/- ### Helper lemmas: bit-level facts of the base32 codec -/

set_option maxRecDepth 4096 in
/-- Value of the eight bits of a byte below 256. -/
theorem bitsVal_byteToBits : ∀ n < 256, bitsVal (byteToBits n) = n := by decide

/-- Bits of the value of an eight-bit group. -/
theorem byteToBits_bitsVal (a b c d e f g h : Bool) :
    byteToBits (bitsVal [a, b, c, d, e, f, g, h]) = [a, b, c, d, e, f, g, h] := by
  revert a b c d e f g h; decide

/-- Value of the five bits of a 5-bit group below 32. -/
theorem bitsVal_quintToBits : ∀ q < 32, bitsVal (quintToBits q) = q := by decide

/-- Bits of the value of a five-bit group. -/
theorem quintToBits_bitsVal (a b c d e : Bool) :
    quintToBits (bitsVal [a, b, c, d, e]) = [a, b, c, d, e] := by
  revert a b c d e; decide

/-- Value bound of a five-bit group. -/
theorem bitsVal_lt_32 (a b c d e : Bool) : bitsVal [a, b, c, d, e] < 32 := by
  revert a b c d e; decide

/-- Alphabet lookup inverts character production. -/
theorem charQuint_quintChar : ∀ q < 32, charQuint (quintChar q) = some q := by decide

/-- Soundness of the alphabet index search. -/
theorem charQuintAux_sound : ∀ (l : List Char) (i : Nat) (c : Char) (q : Nat),
    charQuintAux l i c = some q → i ≤ q ∧ q - i < l.length ∧ l.getD (q - i) 'a' = c
  | [], _, _, _, h => by simp [charQuintAux] at h
  | a :: rest, i, c, q, h => by
    by_cases hac : a = c
    · simp [charQuintAux, hac] at h
      subst h
      simp [hac]
    · simp [charQuintAux, hac] at h
      obtain ⟨h1, h2, h3⟩ := charQuintAux_sound rest (i + 1) c q h
      refine ⟨by omega, by simp; omega, ?_⟩
      have hqi : q - i = (q - (i + 1)) + 1 := by omega
      rw [hqi]
      simpa using h3

/-- A successful alphabet lookup returns an index below 32 whose
    character is the one looked up. -/
theorem charQuint_sound (c : Char) (q : Nat) (h : charQuint c = some q) :
    q < 32 ∧ quintChar q = c := by
  obtain ⟨h1, h2, h3⟩ := charQuintAux_sound base32Alphabet 0 c q h
  simp at h2 h3
  have hlen : base32Alphabet.length = 32 := by decide
  rw [hlen] at h2
  exact ⟨h2, by simpa [quintChar] using h3⟩

/-- Length of the bit string of a byte sequence. -/
theorem length_flatMap_byteToBits (bs : Bytes) :
    (bs.flatMap byteToBits).length = 8 * bs.length := by
  induction bs with
  | nil => simp
  | cons b rest ih => simp [List.flatMap_cons, ih, byteToBits]; ring

/-- Length of the bit string of a 5-bit group sequence. -/
theorem length_flatMap_quintToBits (qs : List Nat) :
    (qs.flatMap quintToBits).length = 5 * qs.length := by
  induction qs with
  | nil => simp
  | cons q rest ih => simp [List.flatMap_cons, ih, quintToBits]; ring

/-- Grouping the concatenated bit strings of bytes recovers them. -/
theorem chunk8_flatMap_byteToBits (bs : Bytes) :
    chunk8 (bs.flatMap byteToBits) = bs.map byteToBits := by
  induction bs with
  | nil => rfl
  | cons b rest ih =>
    show chunk8 (byteToBits b ++ rest.flatMap byteToBits) = byteToBits b :: rest.map byteToBits
    have hstep : chunk8 (byteToBits b ++ rest.flatMap byteToBits)
        = byteToBits b :: chunk8 (rest.flatMap byteToBits) := rfl
    rw [hstep, ih]

/-- Grouping the concatenated bit strings of 5-bit groups recovers them. -/
theorem chunk5_flatMap_quintToBits (qs : List Nat) :
    chunk5 (qs.flatMap quintToBits) = qs.map quintToBits := by
  induction qs with
  | nil => rfl
  | cons q rest ih =>
    show chunk5 (quintToBits q ++ rest.flatMap quintToBits) = quintToBits q :: rest.map quintToBits
    have hstep : chunk5 (quintToBits q ++ rest.flatMap quintToBits)
        = quintToBits q :: chunk5 (rest.flatMap quintToBits) := rfl
    rw [hstep, ih]

/-- Splitting a bit string whose length is a multiple of five yields
    groups of five whose concatenation is the input. -/
theorem chunk5_spec : ∀ (l : List Bool), l.length % 5 = 0 →
    (∀ g ∈ chunk5 l, g.length = 5) ∧ (chunk5 l).flatten = l
  | [], _ => by simp [chunk5]
  | [a], h => by simp at h
  | [a, b], h => by simp at h
  | [a, b, c], h => by simp at h
  | [a, b, c, d], h => by simp at h
  | a :: b :: c :: d :: e :: rest, h => by
    have h5 : rest.length % 5 = 0 := by simp at h; omega
    have ih := chunk5_spec rest h5
    constructor
    · intro g hg
      rw [show chunk5 (a :: b :: c :: d :: e :: rest) = [a,b,c,d,e] :: chunk5 rest from rfl] at hg
      rcases List.mem_cons.mp hg with hg | hg
      · simp [hg]
      · exact ih.1 g hg
    · rw [show chunk5 (a :: b :: c :: d :: e :: rest) = [a,b,c,d,e] :: chunk5 rest from rfl]
      simp [ih.2]

/-- Splitting a bit string whose length is a multiple of eight yields
    groups of eight whose concatenation is the input. -/
theorem chunk8_spec : ∀ (l : List Bool), l.length % 8 = 0 →
    (∀ g ∈ chunk8 l, g.length = 8) ∧ (chunk8 l).flatten = l
  | [], _ => by simp [chunk8]
  | [a], h => by simp at h
  | [a, b], h => by simp at h
  | [a, b, c], h => by simp at h
  | [a, b, c, d], h => by simp at h
  | [a, b, c, d, e], h => by simp at h
  | [a, b, c, d, e, f], h => by simp at h
  | [a, b, c, d, e, f, g], h => by simp at h
  | a :: b :: c :: d :: e :: f :: g :: i :: rest, h => by
    have h8 : rest.length % 8 = 0 := by simp at h; omega
    have ih := chunk8_spec rest h8
    constructor
    · intro x hx
      rw [show chunk8 (a :: b :: c :: d :: e :: f :: g :: i :: rest)
            = [a,b,c,d,e,f,g,i] :: chunk8 rest from rfl] at hx
      rcases List.mem_cons.mp hx with hx | hx
      · simp [hx]
      · exact ih.1 x hx
    · rw [show chunk8 (a :: b :: c :: d :: e :: f :: g :: i :: rest)
            = [a,b,c,d,e,f,g,i] :: chunk8 rest from rfl]
      simp [ih.2]

/-- Decoding the characters of encoded 5-bit groups recovers them. -/
theorem decodeChars_map_quintChar : ∀ (qs : List Nat), (∀ q ∈ qs, q < 32) →
    decodeChars (qs.map quintChar) = some qs
  | [], _ => rfl
  | q :: rest, h => by
    have hq := charQuint_quintChar q (h q (by simp))
    have ih := decodeChars_map_quintChar rest (fun x hx => h x (by simp [hx]))
    simp [decodeChars, hq, ih]

/-- A successful character decode inverts to the input string, with all
    group values below 32. -/
theorem decodeChars_sound : ∀ (s : List Char) (qs : List Nat),
    decodeChars s = some qs → qs.map quintChar = s ∧ ∀ q ∈ qs, q < 32
  | [], qs, h => by
    simp [decodeChars] at h
    subst h
    simp
  | c :: rest, qs, h => by
    simp only [decodeChars] at h
    cases hc : charQuint c with
    | none => rw [hc] at h; simp at h
    | some q =>
      rw [hc] at h
      cases hr : decodeChars rest with
      | none => rw [hr] at h; simp at h
      | some qs' =>
        rw [hr] at h
        simp at h
        obtain ⟨ih1, ih2⟩ := decodeChars_sound rest qs' hr
        obtain ⟨hq32, hqc⟩ := charQuint_sound c q hc
        subst h
        constructor
        · simp [hqc, ih1]
        · intro x hx
          rcases List.mem_cons.mp hx with hx | hx
          · omega
          · exact ih2 x hx

/-- A list of five booleans is a five-element literal. -/
theorem exists_five (g : List Bool) (h : g.length = 5) :
    ∃ a b c d e, g = [a, b, c, d, e] := by
  rcases g with _ | ⟨a, g⟩
  · simp at h
  rcases g with _ | ⟨b, g⟩
  · simp at h
  rcases g with _ | ⟨c, g⟩
  · simp at h
  rcases g with _ | ⟨d, g⟩
  · simp at h
  rcases g with _ | ⟨e, g⟩
  · simp at h
  rcases g with _ | ⟨x, g⟩
  · exact ⟨a, b, c, d, e, rfl⟩
  · simp at h

/-- A list of eight booleans is an eight-element literal. -/
theorem exists_eight (g : List Bool) (h : g.length = 8) :
    ∃ a b c d e f x y, g = [a, b, c, d, e, f, x, y] := by
  rcases g with _ | ⟨a, g⟩
  · simp at h
  rcases g with _ | ⟨b, g⟩
  · simp at h
  rcases g with _ | ⟨c, g⟩
  · simp at h
  rcases g with _ | ⟨d, g⟩
  · simp at h
  rcases g with _ | ⟨e, g⟩
  · simp at h
  rcases g with _ | ⟨f, g⟩
  · simp at h
  rcases g with _ | ⟨x, g⟩
  · simp at h
  rcases g with _ | ⟨y, g⟩
  · simp at h
  rcases g with _ | ⟨z, g⟩
  · exact ⟨a, b, c, d, e, f, x, y, rfl⟩
  · simp at h

/-- Value bound of a group of five bits. -/
theorem bitsVal_lt_32_of_len (g : List Bool) (h : g.length = 5) : bitsVal g < 32 := by
  obtain ⟨a, b, c, d, e, rfl⟩ := exists_five g h
  exact bitsVal_lt_32 a b c d e

/-- Rebuilding the bits of the value of a five-bit group. -/
theorem quintToBits_bitsVal_of_len (g : List Bool) (h : g.length = 5) :
    quintToBits (bitsVal g) = g := by
  obtain ⟨a, b, c, d, e, rfl⟩ := exists_five g h
  exact quintToBits_bitsVal a b c d e

/-- Rebuilding the bits of the value of an eight-bit group. -/
theorem byteToBits_bitsVal_of_len (g : List Bool) (h : g.length = 8) :
    byteToBits (bitsVal g) = g := by
  obtain ⟨a, b, c, d, e, f, x, y, rfl⟩ := exists_eight g h
  exact byteToBits_bitsVal a b c d e f x y

/-- Values of bytes rebuilt from their bit groups. -/
theorem map_bitsVal_map_byteToBits (bs : Bytes) (hb : ∀ b ∈ bs, b < 256) :
    (bs.map byteToBits).map bitsVal = bs := by
  induction bs with
  | nil => rfl
  | cons b rest ih =>
    simp only [List.map_cons, List.cons.injEq]
    exact ⟨bitsVal_byteToBits b (hb b (by simp)),
           ih (fun x hx => hb x (by simp [hx]))⟩

/-- Reassembled bit string of the values of five-bit groups. -/
theorem flatMap_quintToBits_map_bitsVal : ∀ (gs : List (List Bool)),
    (∀ g ∈ gs, g.length = 5) → (gs.map bitsVal).flatMap quintToBits = gs.flatten
  | [], _ => rfl
  | g :: rest, h => by
    simp only [List.map_cons, List.flatMap_cons, List.flatten_cons]
    rw [quintToBits_bitsVal_of_len g (h g (by simp)),
        flatMap_quintToBits_map_bitsVal rest (fun x hx => h x (by simp [hx]))]

/-- Length of the concatenation of five-bit groups. -/
theorem flatten_length_of_five : ∀ (gs : List (List Bool)),
    (∀ g ∈ gs, g.length = 5) → gs.flatten.length = 5 * gs.length
  | [], _ => rfl
  | g :: rest, h => by
    simp only [List.flatten_cons, List.length_append, List.length_cons,
      h g (by simp), flatten_length_of_five rest (fun x hx => h x (by simp [hx]))]
    ring

/-- A scan for a true bit over all-false padding fails. -/
theorem any_replicate_false (n : Nat) :
    (List.replicate n false).any (fun b => b) = false := by
  induction n with
  | zero => rfl
  | succ k ih => simp [List.replicate_succ, ih]

/-- An all-false bit string is a replicate of false. -/
theorem eq_replicate_of_any_false : ∀ (l : List Bool),
    l.any (fun b => b) = false → l = List.replicate l.length false
  | [], _ => rfl
  | b :: rest, h => by
    simp only [List.any_cons, Bool.or_eq_false_iff] at h
    have hb : b = false := by
      cases b
      · rfl
      · exact absurd h.1 (by simp)
    subst hb
    have ih := eq_replicate_of_any_false rest h.2
    simp only [List.length_cons]
    rw [List.replicate_succ, ← ih]

/-- Round trip of the base32 codec, value to text to value: decoding an
    encoded byte sequence recovers it. -/
theorem base32Decode_base32Encode (bs : Bytes) (hb : ∀ b ∈ bs, b < 256) :
    base32Decode (base32Encode bs) = some bs := by
  have hL : (bs.flatMap byteToBits).length = 8 * bs.length := length_flatMap_byteToBits bs
  set bits := bs.flatMap byteToBits with hbits
  set p := (5 - bits.length % 5) % 5 with hp
  have hpadlen : (padBits bits).length = bits.length + p := by
    simp [padBits, hp]
  have hpadmod : (padBits bits).length % 5 = 0 := by
    rw [hpadlen, hp]
    omega
  obtain ⟨hglen, hgflat⟩ := chunk5_spec (padBits bits) hpadmod
  set gs := chunk5 (padBits bits) with hgs
  have hgs5 : 5 * gs.length = bits.length + p := by
    have := flatten_length_of_five gs hglen
    rw [hgflat, hpadlen] at this
    omega
  have henc : base32Encode bs = (gs.map bitsVal).map quintChar := by
    simp [base32Encode, ← hbits, ← hgs, List.map_map]
  have hq32 : ∀ q ∈ gs.map bitsVal, q < 32 := by
    intro q hq
    obtain ⟨g, hg, rfl⟩ := List.mem_map.mp hq
    exact bitsVal_lt_32_of_len g (hglen g hg)
  have hdec : decodeChars (base32Encode bs) = some (gs.map bitsVal) := by
    rw [henc]
    exact decodeChars_map_quintChar (gs.map bitsVal) hq32
  have hslen : (base32Encode bs).length = gs.length := by
    rw [henc]; simp
  have hrebuild : (gs.map bitsVal).flatMap quintToBits = padBits bits := by
    rw [flatMap_quintToBits_map_bitsVal gs hglen, hgflat]
  have hplt : p < 5 := by omega
  have hnb : 5 * (base32Encode bs).length / 8 = bs.length := by
    rw [hslen]
    omega
  rw [base32Decode, hdec]
  simp only [hrebuild, hnb]
  have hcond1 : ¬(5 * (base32Encode bs).length - 8 * bs.length ≥ 5) := by
    rw [hslen]
    omega
  rw [if_neg hcond1]
  have htake : (padBits bits).take (8 * bs.length) = bits := by
    show (bits ++ List.replicate p false).take (8 * bs.length) = bits
    exact List.take_left' (by omega)
  have hdrop : (padBits bits).drop (8 * bs.length) = List.replicate p false := by
    show (bits ++ List.replicate p false).drop (8 * bs.length) = List.replicate p false
    exact List.drop_left' (by omega)
  rw [hdrop, any_replicate_false, htake]
  simp only [Bool.false_eq_true, if_false]
  rw [hbits, chunk8_flatMap_byteToBits, map_bitsVal_map_byteToBits bs hb]

/-- Reassembled bit string of the values of eight-bit groups. -/
theorem flatMap_byteToBits_map_bitsVal : ∀ (gs : List (List Bool)),
    (∀ g ∈ gs, g.length = 8) → (gs.map bitsVal).flatMap byteToBits = gs.flatten
  | [], _ => rfl
  | g :: rest, h => by
    simp only [List.map_cons, List.flatMap_cons, List.flatten_cons]
    rw [byteToBits_bitsVal_of_len g (h g (by simp)),
        flatMap_byteToBits_map_bitsVal rest (fun x hx => h x (by simp [hx]))]

/-- Re-encoding the values of the 5-bit groups of a decode recovers the
    characters. -/
theorem map_quintChar_of_decoded : ∀ (qs : List Nat), (∀ q ∈ qs, q < 32) →
    (qs.map quintToBits).map (fun g => quintChar (bitsVal g)) = qs.map quintChar
  | [], _ => rfl
  | q :: rest, h => by
    simp only [List.map_cons, List.cons.injEq]
    refine ⟨?_, map_quintChar_of_decoded rest (fun x hx => h x (by simp [hx]))⟩
    rw [bitsVal_quintToBits q (h q (by simp))]

/-- Round trip of the base32 codec, text to value to text: a string the
    decoder accepts re-encodes to itself byte for byte. -/
theorem base32Encode_base32Decode (s : List Char) (bs : Bytes)
    (h : base32Decode s = some bs) : base32Encode bs = s := by
  rw [base32Decode] at h
  cases hdc : decodeChars s with
  | none => rw [hdc] at h; simp at h
  | some qs =>
    rw [hdc] at h
    simp only at h
    by_cases hc1 : 5 * s.length - 8 * (5 * s.length / 8) ≥ 5
    · rw [if_pos hc1] at h
      simp at h
    · rw [if_neg hc1] at h
      by_cases hc2 : ((qs.flatMap quintToBits).drop (8 * (5 * s.length / 8))).any (fun b => b) = true
      · rw [if_pos hc2] at h
        simp at h
      · rw [if_neg hc2] at h
        simp only [Option.some.injEq] at h
        obtain ⟨hmap, hq32⟩ := decodeChars_sound s qs hdc
        have hsq : s.length = qs.length := by rw [← hmap]; simp
        have hbl : (qs.flatMap quintToBits).length = 5 * s.length := by
          rw [length_flatMap_quintToBits, hsq]
        set n := 5 * s.length / 8 with hn
        have h8n : 8 * n ≤ 5 * s.length := by omega
        have hr5 : 5 * s.length - 8 * n < 5 := by omega
        set bits := qs.flatMap quintToBits with hbits
        have htl : (bits.take (8 * n)).length = 8 * n := by
          rw [List.length_take]
          omega
        have htmod : (bits.take (8 * n)).length % 8 = 0 := by
          rw [htl]
          omega
        obtain ⟨h8len, h8flat⟩ := chunk8_spec (bits.take (8 * n)) htmod
        have hbs2 : bs.flatMap byteToBits = bits.take (8 * n) := by
          rw [← h]
          rw [flatMap_byteToBits_map_bitsVal (chunk8 (bits.take (8 * n))) h8len, h8flat]
        have hdropall : bits.drop (8 * n) = List.replicate (5 * s.length - 8 * n) false := by
          have hany : (bits.drop (8 * n)).any (fun b => b) = false := by
            exact Bool.not_eq_true _ |>.mp hc2
          have := eq_replicate_of_any_false (bits.drop (8 * n)) hany
          rwa [List.length_drop, hbl] at this
        have hpad : padBits (bits.take (8 * n)) = bits := by
          rw [padBits, htl]
          have hp2 : (5 - 8 * n % 5) % 5 = 5 * s.length - 8 * n := by
            omega
          rw [hp2, ← hdropall, List.take_append_drop]
        rw [base32Encode, hbs2, hpad, hbits, chunk5_flatMap_quintToBits,
            map_quintChar_of_decoded qs hq32, hmap]

/- ### Helper lemmas: the lexicographic byte order and the merge -/

/-- Irreflexivity of the byte order. -/
theorem bytesLt_irrefl : ∀ a : Bytes, bytesLt a a = false
  | [] => rfl
  | x :: xs => by simp [bytesLt, bytesLt_irrefl xs]

/-- Asymmetry of the byte order. -/
theorem bytesLt_asymm : ∀ a b : Bytes, bytesLt a b = true → bytesLt b a = false
  | [], [] => by simp [bytesLt]
  | [], _ :: _ => fun _ => rfl
  | _ :: _, [] => by simp [bytesLt]
  | x :: xs, y :: ys => by
    intro h
    simp only [bytesLt] at h ⊢
    by_cases h1 : x < y
    · have h2 : ¬y < x := by omega
      simp [h1, h2]
    · by_cases h2 : y < x
      · simp [h1, h2] at h
      · simp [h1, h2] at h ⊢
        exact bytesLt_asymm xs ys h

/-- Totality of the byte order: mutually incomparable byte strings are
    equal. -/
theorem bytesLt_eq_of_not : ∀ a b : Bytes,
    bytesLt a b = false → bytesLt b a = false → a = b
  | [], [] => fun _ _ => rfl
  | [], _ :: _ => by simp [bytesLt]
  | _ :: _, [] => by intro h1 h2; simp [bytesLt] at h2
  | x :: xs, y :: ys => by
    intro h1 h2
    simp only [bytesLt] at h1 h2
    by_cases hxy : x < y
    · simp [hxy] at h1
    · by_cases hyx : y < x
      · simp [hxy, hyx] at h2
      · have hx : x = y := by omega
        subst hx
        simp [hxy, hyx] at h1 h2
        rw [bytesLt_eq_of_not xs ys h1 h2]

/-- Transitivity of the byte order. -/
theorem bytesLt_trans : ∀ a b c : Bytes,
    bytesLt a b = true → bytesLt b c = true → bytesLt a c = true
  | [], [], _ => by simp [bytesLt]
  | [], _ :: _, [] => by intro _ h2; simp [bytesLt] at h2
  | [], _ :: _, _ :: _ => fun _ _ => rfl
  | _ :: _, [], _ => by intro h1; simp [bytesLt] at h1
  | _ :: _, _ :: _, [] => by intro _ h2; simp [bytesLt] at h2
  | x :: xs, y :: ys, z :: zs => by
    intro h1 h2
    simp only [bytesLt] at h1 h2 ⊢
    by_cases hxy : x < y <;> by_cases hyz : y < z
    · simp [show x < z by omega]
    · by_cases hzy : z < y
      · simp [hyz, hzy] at h2
      · have hyz2 : y = z := by omega
        subst hyz2
        simp [hxy]
    · by_cases hyx : y < x
      · simp [hxy, hyx] at h1
      · have hxy2 : x = y := by omega
        subst hxy2
        simp [hyz]
    · by_cases hyx : y < x
      · simp [hxy, hyx] at h1
      · by_cases hzy : z < y
        · simp [hyz, hzy] at h2
        · have hxy2 : x = y := by omega
          have hyz2 : y = z := by omega
          subst hxy2
          subst hyz2
          simp [hxy] at h1 h2 ⊢
          exact bytesLt_trans xs ys zs h1 h2

/-- Irreflexivity of supersession. -/
theorem supersedes_irrefl (a : Entry) : supersedes a a = false := by
  simp [supersedes, bytesLt_irrefl]

/-- Asymmetry of supersession. -/
theorem supersedes_asymm (x y : Entry) (h : supersedes x y = true) :
    supersedes y x = false := by
  simp only [supersedes, Bool.or_eq_true, Bool.and_eq_true, decide_eq_true_eq,
    beq_iff_eq] at h
  simp only [supersedes, Bool.or_eq_false_iff, Bool.and_eq_false_iff]
  rcases h with h | ⟨hts, hlt⟩
  · constructor
    · simp; omega
    · left; simp; omega
  · constructor
    · simp; omega
    · right
      exact bytesLt_asymm _ _ hlt

/-- Transitivity of supersession. -/
theorem supersedes_trans (x y z : Entry)
    (h1 : supersedes x y = true) (h2 : supersedes y z = true) :
    supersedes x z = true := by
  simp only [supersedes, Bool.or_eq_true, Bool.and_eq_true, decide_eq_true_eq,
    beq_iff_eq] at h1 h2 ⊢
  rcases h1 with h1 | ⟨h1t, h1l⟩ <;> rcases h2 with h2 | ⟨h2t, h2l⟩
  · left; omega
  · left; omega
  · left; omega
  · right
    exact ⟨by omega, bytesLt_trans _ _ _ h2l h1l⟩

/-- Negative transitivity of supersession. -/
theorem supersedes_neg_trans (x y z : Entry)
    (h1 : supersedes x y = false) (h2 : supersedes y z = false) :
    supersedes x z = false := by
  by_contra hc
  have hxz : supersedes x z = true := by
    cases hxz2 : supersedes x z
    · exact absurd hxz2 hc
    · rfl
  simp only [supersedes, Bool.or_eq_true, Bool.and_eq_true, decide_eq_true_eq,
    beq_iff_eq] at hxz
  simp only [supersedes, Bool.or_eq_false_iff, Bool.and_eq_false_iff,
    decide_eq_false_iff_not, beq_eq_false_iff_ne, ne_eq] at h1 h2
  obtain ⟨h1a, h1b⟩ := h1
  obtain ⟨h2a, h2b⟩ := h2
  rcases hxz with hxz | ⟨hts, hlt⟩
  · rcases h1b with h1b | h1b <;> rcases h2b with h2b | h2b <;> omega
  · have hy : y.timestamp = x.timestamp := by
      rcases h1b with h1b | h1b <;> rcases h2b with h2b | h2b <;> omega
    have hz : z.timestamp = y.timestamp := by omega
    have hby : bytesLt y.contentHash x.contentHash = false := by
      rcases h1b with h1b | h1b
      · omega
      · exact h1b
    have hbz : bytesLt z.contentHash y.contentHash = false := by
      rcases h2b with h2b | h2b
      · omega
      · exact h2b
    by_cases hba : bytesLt y.contentHash z.contentHash = true
    · rw [bytesLt_trans _ _ _ hba hlt] at hby
      simp at hby
    · have : z.contentHash = y.contentHash := by
        apply bytesLt_eq_of_not _ _ hbz
        cases hv : bytesLt y.contentHash z.contentHash
        · rfl
        · exact absurd hv hba
      rw [this] at hlt
      rw [hlt] at hby
      simp at hby

/-- Ties in supersession identify timestamp and content hash. -/
theorem supersedes_tie (x y : Entry)
    (h1 : supersedes x y = false) (h2 : supersedes y x = false) :
    x.timestamp = y.timestamp ∧ x.contentHash = y.contentHash := by
  simp only [supersedes, Bool.or_eq_false_iff, Bool.and_eq_false_iff,
    decide_eq_false_iff_not, beq_eq_false_iff_ne, ne_eq] at h1 h2
  obtain ⟨h1a, h1b⟩ := h1
  obtain ⟨h2a, h2b⟩ := h2
  have hts : x.timestamp = y.timestamp := by omega
  refine ⟨hts, ?_⟩
  have hxy : bytesLt x.contentHash y.contentHash = false := by
    rcases h2b with h2b | h2b
    · omega
    · exact h2b
  have hyx : bytesLt y.contentHash x.contentHash = false := by
    rcases h1b with h1b | h1b
    · omega
    · exact h1b
  exact bytesLt_eq_of_not _ _ hxy hyx

/-- The merge returns one of its arguments. -/
theorem mergeEntries_choice (a b : Entry) :
    mergeEntries a b = a ∨ mergeEntries a b = b := by
  unfold mergeEntries
  split
  · right; rfl
  · left; rfl

/-- Idempotence of the merge. -/
theorem mergeEntries_idem (a : Entry) : mergeEntries a a = a := by
  simp [mergeEntries, supersedes_irrefl]

/-- Commutativity of the merge for entries of one slot whose content
    hash determines the content length. -/
theorem mergeEntries_comm (a b : Entry)
    (hA : a.author = b.author) (hK : a.key = b.key)
    (hC : a.contentHash = b.contentHash → a.contentLen = b.contentLen) :
    mergeEntries a b = mergeEntries b a := by
  unfold mergeEntries
  by_cases s1 : supersedes b a = true
  · rw [if_pos s1, if_neg (by rw [supersedes_asymm b a s1]; simp)]
  · have s1f : supersedes b a = false := by
      cases hv : supersedes b a
      · rfl
      · exact absurd hv s1
    by_cases s2 : supersedes a b = true
    · rw [if_neg s1, if_pos s2]
    · have s2f : supersedes a b = false := by
        cases hv : supersedes a b
        · rfl
        · exact absurd hv s2
      rw [if_neg s1, if_neg s2]
      obtain ⟨hts, hh⟩ := supersedes_tie b a s1f s2f
      obtain ⟨aa, ak, ah, al, at'⟩ := a
      obtain ⟨ba, bk, bh, bl, bt⟩ := b
      simp only at hA hK hC hts hh
      subst hA
      subst hK
      subst hh
      subst hts
      rw [hC rfl]

/-- Associativity of the merge. -/
theorem mergeEntries_assoc (a b c : Entry) :
    mergeEntries (mergeEntries a b) c = mergeEntries a (mergeEntries b c) := by
  unfold mergeEntries
  by_cases s1 : supersedes b a = true
  · rw [if_pos s1]
    by_cases s2 : supersedes c b = true
    · rw [if_pos s2, if_pos (supersedes_trans c b a s2 s1)]
    · simp only [s2, if_false, Bool.false_eq_true]
      rw [if_pos s1]
  · have s1f : supersedes b a = false := by
      cases hv : supersedes b a
      · rfl
      · exact absurd hv s1
    rw [if_neg s1]
    by_cases s2 : supersedes c b = true
    · rw [if_pos s2]
    · have s2f : supersedes c b = false := by
        cases hv : supersedes c b
        · rfl
        · exact absurd hv s2
      simp only [s2, if_false, Bool.false_eq_true]
      rw [if_neg s1,
        if_neg (by rw [supersedes_neg_trans c b a s2f s1f]; simp)]

/-- Merging an entry of the same slot preserves the slot. -/
theorem mergeEntries_slot (o e : Entry) (h : slotIs o e.author e.key = true) :
    (mergeEntries o e).author = o.author ∧ (mergeEntries o e).key = o.key := by
  simp only [slotIs, Bool.and_eq_true, beq_iff_eq] at h
  rcases mergeEntries_choice o e with hm | hm <;> rw [hm]
  · exact ⟨rfl, rfl⟩
  · exact ⟨h.1.symm, h.2.symm⟩

/-- A merge wins for the incoming entry exactly when it supersedes. -/
theorem mergeEntries_eq_right (o e : Entry) (h : supersedes e o = true) :
    mergeEntries o e = e := by
  simp [mergeEntries, h]

/-- A merge keeps the stored entry when the incoming one does not
    supersede it. -/
theorem mergeEntries_eq_left (o e : Entry) (h : supersedes e o = false) :
    mergeEntries o e = o := by
  simp [mergeEntries, h]

/-- Elements of the table after an insert come from the table or are
    the inserted entry. -/
theorem mem_insertEntry (st : List Entry) (e x : Entry)
    (hx : x ∈ insertEntry st e) : x ∈ st ∨ x = e := by
  unfold insertEntry at hx
  split at hx
  · obtain ⟨o, ho, hfo⟩ := List.mem_map.mp hx
    by_cases hs : slotIs o e.author e.key = true
    · rw [if_pos hs] at hfo
      rcases mergeEntries_choice o e with hm | hm
      · left; rw [← hfo, hm]; exact ho
      · right; rw [← hfo, hm]
    · rw [if_neg hs] at hfo
      left; rw [← hfo]; exact ho
  · rcases List.mem_append.mp hx with hx | hx
    · left; exact hx
    · right; simpa using hx

/-- Inserting preserves the one-entry-per-slot invariant. -/
theorem insertEntry_slotNodup (st : List Entry) (e : Entry)
    (hnd : SlotNodup st) : SlotNodup (insertEntry st e) := by
  unfold SlotNodup at hnd ⊢
  unfold insertEntry
  split
  · apply List.Pairwise.map
      (fun o => if slotIs o e.author e.key then mergeEntries o e else o)
      (S := fun x y => ¬(x.author = y.author ∧ x.key = y.key))
    · intro a b hab
      have ha : (if slotIs a e.author e.key then mergeEntries a e else a).author = a.author ∧
          (if slotIs a e.author e.key then mergeEntries a e else a).key = a.key := by
        split
        · exact mergeEntries_slot a e (by assumption)
        · exact ⟨rfl, rfl⟩
      have hb : (if slotIs b e.author e.key then mergeEntries b e else b).author = b.author ∧
          (if slotIs b e.author e.key then mergeEntries b e else b).key = b.key := by
        split
        · exact mergeEntries_slot b e (by assumption)
        · exact ⟨rfl, rfl⟩
      rw [ha.1, ha.2, hb.1, hb.2]
      exact hab
    · exact hnd
  · rw [List.pairwise_append]
    refine ⟨hnd, List.pairwise_singleton _ _, ?_⟩
    intro a ha b hb
    have hb2 : b = e := by simpa using hb
    subst hb2
    rename_i hany
    intro hslot
    apply hany
    rw [List.any_eq_true]
    exact ⟨a, ha, by simp [slotIs, hslot.1, hslot.2]⟩

/-- Looking up the written slot after inserting over a stored entry
    yields the merge of the two. -/
theorem slotLookup_insert_of_found : ∀ (st : List Entry) (e o : Entry),
    slotLookup st e.author e.key = some o →
    slotLookup (insertEntry st e) e.author e.key = some (mergeEntries o e)
  | [], e, o => by simp [slotLookup]
  | x :: st, e, o => by
    intro h
    have hp : (fun z => slotIs z e.author e.key) o = true :=
      List.find?_some (p := fun z => slotIs z e.author e.key) h
    have hany : (x :: st).any (fun z => slotIs z e.author e.key) = true := by
      rw [List.any_eq_true]
      exact ⟨o, List.mem_of_find?_eq_some h, hp⟩
    unfold insertEntry
    rw [if_pos hany]
    by_cases hx : slotIs x e.author e.key = true
    · have ho : o = x := by
        unfold slotLookup at h
        rw [List.find?_cons_of_pos (p := fun z => slotIs z e.author e.key) st hx] at h
        simpa using h.symm
      subst ho
      unfold slotLookup
      rw [List.map_cons, if_pos hx,
        List.find?_cons_of_pos (p := fun z => slotIs z e.author e.key)]
      have hms := mergeEntries_slot o e hx
      show slotIs (mergeEntries o e) e.author e.key = true
      simp only [slotIs, Bool.and_eq_true, beq_iff_eq] at hx ⊢
      rw [hms.1, hms.2]
      exact hx
    · have hxf : slotIs x e.author e.key = false := by
        cases hv : slotIs x e.author e.key
        · rfl
        · exact absurd hv hx
      unfold slotLookup at h
      rw [List.find?_cons_of_neg (p := fun z => slotIs z e.author e.key) st (by simp [hxf])] at h
      have ih := slotLookup_insert_of_found st e o h
      have hany2 : st.any (fun z => slotIs z e.author e.key) = true := by
        rw [List.any_eq_true]
        exact ⟨o, List.mem_of_find?_eq_some h, hp⟩
      unfold insertEntry at ih
      rw [if_pos hany2] at ih
      unfold slotLookup
      rw [List.map_cons, if_neg (by simp [hxf]),
        List.find?_cons_of_neg (p := fun z => slotIs z e.author e.key) _ (by simp [hxf])]
      exact ih

/-- Looking up the written slot after inserting into a table that had
    no entry for it yields the inserted entry. -/
theorem slotLookup_insert_of_none (st : List Entry) (e : Entry)
    (h : slotLookup st e.author e.key = none) :
    slotLookup (insertEntry st e) e.author e.key = some e := by
  unfold slotLookup at h
  have hall := List.find?_eq_none.mp h
  have hany : st.any (fun z => slotIs z e.author e.key) = false := by
    rw [List.any_eq_false]
    intro x hx
    exact hall x hx
  unfold insertEntry
  rw [if_neg (by simp [hany])]
  unfold slotLookup
  rw [List.find?_append, h]
  simp [slotIs]

/-- A table satisfying the invariant has at most one entry per slot. -/
theorem slotCount_le_one : ∀ (st : List Entry), SlotNodup st →
    ∀ a k, slotCount st a k ≤ 1
  | [], _, _, _ => by simp [slotCount]
  | x :: st, hnd, a, k => by
    unfold SlotNodup at hnd
    have htail : SlotNodup st := List.Pairwise.of_cons hnd
    have hrel : ∀ y ∈ st, ¬(x.author = y.author ∧ x.key = y.key) :=
      fun y hy => List.rel_of_pairwise_cons hnd hy
    by_cases hx : slotIs x a k = true
    · have hrest : st.filter (fun e => slotIs e a k) = [] := by
        rw [List.filter_eq_nil_iff]
        intro y hy hsy
        simp only [slotIs, Bool.and_eq_true, beq_iff_eq] at hx hsy
        exact hrel y hy ⟨by rw [hx.1, hsy.1], by rw [hx.2, hsy.2]⟩
      simp [slotCount, List.filter_cons, hx, hrest]
    · have hxf : slotIs x a k = false := by
        cases hv : slotIs x a k
        · rfl
        · exact absurd hv hx
      have := slotCount_le_one st htail a k
      simpa [slotCount, List.filter_cons, hxf] using this

/-- A successful slot lookup witnesses a stored entry of the slot. -/
theorem slotCount_pos_of_lookup (st : List Entry) (a k : Bytes) (o : Entry)
    (h : slotLookup st a k = some o) : 1 ≤ slotCount st a k := by
  have hmem : o ∈ st := List.mem_of_find?_eq_some h
  have hp : (fun e => slotIs e a k) o = true :=
    List.find?_some (p := fun e => slotIs e a k) h
  have hmf : o ∈ st.filter (fun e => slotIs e a k) := List.mem_filter.mpr ⟨hmem, hp⟩
  have := List.length_pos_of_mem hmf
  simpa [slotCount] using this

/-- Replicas folding the same multiset of entries agree on every slot
    (the fold is invariant under permutation of arrival order). -/
theorem currentEntry_perm (l1 l2 : List Entry) (hp : l1.Perm l2)
    (hca : ContentAddressed l1) (a k : Bytes) :
    currentEntry l1 a k = currentEntry l2 a k := by
  unfold currentEntry
  apply List.Perm.foldl_eq' (hp.filter _)
  intro x hx y hy z
  have hx2 := List.mem_filter.mp hx
  have hy2 := List.mem_filter.mp hy
  have hcomm : mergeEntries x y = mergeEntries y x := by
    apply mergeEntries_comm
    · simp only [slotIs, Bool.and_eq_true, beq_iff_eq] at hx2 hy2
      rw [hx2.2.1, hy2.2.1]
    · simp only [slotIs, Bool.and_eq_true, beq_iff_eq] at hx2 hy2
      rw [hx2.2.2, hy2.2.2]
    · exact hca x hx2.1 y hy2.1
  cases z with
  | none => simp [hcomm]
  | some w =>
    simp only [Option.some.injEq]
    rw [mergeEntries_assoc, mergeEntries_assoc, hcomm]

/-- Writing advances the local clock by one. -/
theorem setBytes_clock (st : DocState) (a k v : Bytes) :
    (setBytes st a k v).clock = st.clock + 1 := rfl

/-- Writing keeps every stored timestamp bounded by the clock. -/
theorem clockBound_setBytes (st : DocState) (a k v : Bytes)
    (h : ClockBound st) : ClockBound (setBytes st a k v) := by
  intro e he
  rcases mem_insertEntry _ _ _ he with hm | hm
  · have := h e hm
    simp only [setBytes_clock]
    omega
  · subst hm
    simp [setBytes_clock]

/-- Writing preserves the one-entry-per-slot invariant. -/
theorem slotNodup_setBytes (st : DocState) (a k v : Bytes)
    (h : SlotNodup st.entries) : SlotNodup (setBytes st a k v).entries :=
  insertEntry_slotNodup st.entries _ h

/-- After a write, the written slot holds the freshly written entry:
    the new timestamp is strictly greater than every stored one, so the
    write supersedes whatever the slot held. -/
theorem slotLookup_setBytes (st : DocState) (a k v : Bytes)
    (hcb : ClockBound st) :
    slotLookup (setBytes st a k v).entries a k
      = some ⟨a, k, hashOf v, v.length, st.clock + 1⟩ := by
  cases ho : slotLookup st.entries a k with
  | none =>
    exact slotLookup_insert_of_none st.entries ⟨a, k, hashOf v, v.length, st.clock + 1⟩ ho
  | some o =>
    have hot : o.timestamp ≤ st.clock := hcb o (List.mem_of_find?_eq_some ho)
    have hsup : supersedes ⟨a, k, hashOf v, v.length, st.clock + 1⟩ o = true := by
      simp only [supersedes, Bool.or_eq_true, decide_eq_true_eq]
      left
      show o.timestamp < st.clock + 1
      omega
    have hfound := slotLookup_insert_of_found st.entries
      ⟨a, k, hashOf v, v.length, st.clock + 1⟩ o ho
    rw [mergeEntries_eq_right o _ hsup] at hfound
    exact hfound

/-- Reading back a just-written value succeeds. -/
theorem readToBytes_setBytes (st : DocState) (a k v : Bytes) :
    readToBytes (setBytes st a k v) (hashOf v) = some v := by
  simp [readToBytes, setBytes]

/- ### Helper lemmas: the query engine -/

/-- Sorted insertion adds one element. -/
theorem length_insSorted (le : Entry → Entry → Bool) (e : Entry) :
    ∀ (l : List Entry), (insSorted le e l).length = l.length + 1
  | [] => rfl
  | x :: xs => by
    unfold insSorted
    split
    · rfl
    · simp [length_insSorted le e xs]

/-- Insertion sort preserves the number of entries. -/
theorem length_sortEntries (le : Entry → Entry → Bool) :
    ∀ (l : List Entry), (sortEntries le l).length = l.length
  | [] => rfl
  | x :: xs => by
    unfold sortEntries
    simp only [List.foldr_cons]
    rw [length_insSorted]
    have := length_sortEntries le xs
    unfold sortEntries at this
    rw [this]
    rfl

/- ### Helper lemmas: garbage collection -/

/-- Everything the reachability walk visits is a root or a member of a
    stored HASH_SEQ blob. -/
theorem reachIter_mem (st : BlobState) :
    ∀ (n : Nat) (x : Bytes), x ∈ reachIter st n →
      x ∈ gcRoots st ∨ ∃ h, x ∈ membersOf st h
  | 0, x, hx => Or.inl hx
  | n + 1, x, hx => by
    rcases List.mem_append.mp hx with hx | hx
    · exact reachIter_mem st n x hx
    · obtain ⟨h, _, hm⟩ := List.mem_flatMap.mp hx
      exact Or.inr ⟨h, hm⟩

/-- The roots stay in every iteration of the reachability walk. -/
theorem roots_subset_reachIter (st : BlobState) :
    ∀ (n : Nat) (x : Bytes), x ∈ gcRoots st → x ∈ reachIter st n
  | 0, _, hx => hx
  | n + 1, x, hx => List.mem_append.mpr (Or.inl (roots_subset_reachIter st n x hx))

/-- Member hashes come from stored HASH_SEQ blobs. -/
theorem mem_membersOf (st : BlobState) (h x : Bytes)
    (hx : x ∈ membersOf st h) : ∃ b ∈ st.blobs, x ∈ b.members := by
  obtain ⟨b, hb, hm⟩ := List.mem_flatMap.mp hx
  exact ⟨b, (List.mem_filter.mp hb).1, hm⟩

/- ### Helper lemmas: gossip traces -/

/-- Splitting the preceded-by-NeighborUp scan over an append. -/
theorem upBeforeRecv_append (a : Bytes) :
    ∀ (l l2 : List GEvent) (seen : Bool),
      upBeforeRecv a (l ++ l2) seen
        = (upBeforeRecv a l seen && upBeforeRecv a l2 (seen || l.any (isUpFor a)))
  | [], l2, seen => by simp [upBeforeRecv]
  | ev :: rest, l2, seen => by
    simp only [List.cons_append, upBeforeRecv, List.any_cons, List.append_eq]
    rw [upBeforeRecv_append a rest l2 (seen || isUpFor a ev)]
    rw [Bool.and_assoc]
    have : (seen || isUpFor a ev || rest.any (isUpFor a))
        = (seen || (isUpFor a ev || rest.any (isUpFor a))) := by
      rw [Bool.or_assoc]
    rw [this]

/-- A trace passing the scan has a NeighborUp before every Received. -/
theorem upBeforeRecv_decomp (a : Bytes) (pre post : List GEvent) (m : Bytes)
    (h : upBeforeRecv a (pre ++ GEvent.received m a :: post) false = true) :
    pre.any (isUpFor a) = true := by
  rw [upBeforeRecv_append] at h
  simp only [Bool.and_eq_true] at h
  have h2 := h.2
  simp only [upBeforeRecv, isRecvFrom, Bool.false_or, Bool.and_eq_true,
    Bool.or_eq_true, Bool.not_eq_true'] at h2
  rcases h2.1 with h2a | h2a
  · simp at h2a
  · exact h2a

/-- Delivered-from-a messages of a trace extended by a non-Received
    event. -/
theorem receivedFrom_append_up (a : Bytes) (tr : List GEvent) (p : Bytes) :
    receivedFrom a (tr ++ [GEvent.neighborUp p]) = receivedFrom a tr := by
  simp [receivedFrom]

/-- Delivered-from-a messages of a trace extended by a NeighborDown. -/
theorem receivedFrom_append_down (a : Bytes) (tr : List GEvent) (p : Bytes) :
    receivedFrom a (tr ++ [GEvent.neighborDown p]) = receivedFrom a tr := by
  simp [receivedFrom]

/-- Delivered-from-a messages of a trace extended by a delivery. -/
theorem receivedFrom_append_recv (a : Bytes) (tr : List GEvent) (m : Bytes) :
    receivedFrom a (tr ++ [GEvent.received m a]) = receivedFrom a tr ++ [m] := by
  simp [receivedFrom]

/-- A message in the delivered-from-a projection was delivered as a
    Received event naming a as its sender. -/
theorem mem_receivedFrom (a m : Bytes) (tr : List GEvent)
    (h : m ∈ receivedFrom a tr) : GEvent.received m a ∈ tr := by
  obtain ⟨ev, hev, hf⟩ := List.mem_filterMap.mp h
  cases ev with
  | joined => simp at hf
  | neighborUp p => simp at hf
  | neighborDown p => simp at hf
  | received m' p =>
    by_cases hpa : p == a
    · simp only [hpa, if_pos] at hf
      have hp : p = a := by simpa using hpa
      have hm : m' = m := by simpa using hf
      subst hp
      subst hm
      exact hev
    · simp [hpa] at hf

/-- Invariant of the receiver's view of a gossip session with sender a:
    once a neighbour, a NeighborUp for a is in the trace; every Received
    from a is preceded by a NeighborUp for a; and the delivered messages
    followed by the still-queued ones are exactly the broadcasts, in
    order (per-sender FIFO). -/
def GossipInv (a : Bytes) (s : GossipView) : Prop :=
  (s.neighbor = true → s.trace.any (isUpFor a) = true) ∧
  upBeforeRecv a s.trace false = true ∧
  receivedFrom a s.trace ++ s.pending = s.sent

/-- Each gossip transition preserves the invariant. -/
theorem gossipStep_inv (a : Bytes) (s s' : GossipView)
    (hstep : GossipStep a s s') (hinv : GossipInv a s) : GossipInv a s' := by
  obtain ⟨h1, h2, h3⟩ := hinv
  cases hstep with
  | up hn =>
    refine ⟨fun _ => ?_, ?_, ?_⟩
    · simp [isUpFor]
    · rw [upBeforeRecv_append]
      simp only [h2, Bool.true_and]
      simp [upBeforeRecv, isRecvFrom]
    · rw [receivedFrom_append_up]
      exact h3
  | down hn =>
    refine ⟨fun hfalse => by simp at hfalse, ?_, ?_⟩
    · rw [upBeforeRecv_append]
      simp only [h2, Bool.true_and]
      simp [upBeforeRecv, isRecvFrom]
    · rw [receivedFrom_append_down]
      exact h3
  | broadcast m =>
    refine ⟨h1, h2, ?_⟩
    show receivedFrom a s.trace ++ (s.pending ++ [m]) = s.sent ++ [m]
    rw [← List.append_assoc, h3]
  | deliver m rest hn hp =>
    have hup : s.trace.any (isUpFor a) = true := h1 hn
    refine ⟨fun _ => ?_, ?_, ?_⟩
    · simp [hup]
    · rw [upBeforeRecv_append]
      simp only [h2, Bool.true_and]
      simp [upBeforeRecv, isRecvFrom, hup]
    · show receivedFrom a (s.trace ++ [GEvent.received m a]) ++ rest = s.sent
      rw [receivedFrom_append_recv]
      rw [List.append_assoc, List.singleton_append, ← hp, h3]

/-- The invariant holds in every state reachable from the initial one. -/
theorem gossip_reachable_inv (a : Bytes) (s : GossipView)
    (h : Relation.ReflTransGen (GossipStep a) gossipInit s) : GossipInv a s := by
  induction h with
  | refl =>
    refine ⟨fun hfalse => by simp [gossipInit] at hfalse, rfl, rfl⟩
  | tail _ hstep ih => exact gossipStep_inv a _ _ hstep ih

/-- Deduplication never grows the entry list. -/
theorem dedupLatest_foldl_length : ∀ (l acc : List Entry),
    (l.foldl (fun acc e =>
      if acc.any (fun o => o.key == e.key) then
        acc.map (fun o => if o.key == e.key then mergeEntries o e else o)
      else
        acc ++ [e]) acc).length ≤ acc.length + l.length
  | [], acc => by simp
  | e :: rest, acc => by
    simp only [List.foldl_cons]
    split
    · have := dedupLatest_foldl_length rest
        (acc.map (fun o => if o.key == e.key then mergeEntries o e else o))
      simp only [List.length_map] at this
      calc _ ≤ acc.length + rest.length := this
        _ ≤ acc.length + (e :: rest).length := by simp only [List.length_cons]; omega
    · have := dedupLatest_foldl_length rest (acc ++ [e])
      simp only [List.length_append, List.length_singleton] at this
      calc _ ≤ acc.length + 1 + rest.length := this
        _ ≤ acc.length + (e :: rest).length := by simp only [List.length_cons]; omega

/-- Deduplication bound on the query's match list. -/
theorem dedupLatest_length (l : List Entry) : (dedupLatest l).length ≤ l.length := by
  have := dedupLatest_foldl_length l []
  simpa [dedupLatest] using this

/- ### Claims -/

/-- C1: the entry table keeps at most one current entry per
    (author, key) slot; an insert for an occupied slot stores the merge
    of old and new, the incoming entry wins iff its timestamp is
    strictly greater or the timestamps tie and its content hash is
    lexicographically greater (so a write carrying an earlier timestamp
    never replaces the stored entry); and writing V1 then V2 under one
    key and author leaves exactly one current entry whose content reads
    back as V2. -/
theorem C1_entry_supersession :
    (∀ (st : List Entry) (e : Entry), SlotNodup st → SlotNodup (insertEntry st e)) ∧
    (∀ (st : List Entry) (e o : Entry), slotLookup st e.author e.key = some o →
      slotLookup (insertEntry st e) e.author e.key = some (mergeEntries o e) ∧
      (o.timestamp < e.timestamp → mergeEntries o e = e) ∧
      (o.timestamp = e.timestamp → bytesLt o.contentHash e.contentHash = true →
        mergeEntries o e = e) ∧
      (e.timestamp < o.timestamp → mergeEntries o e = o) ∧
      (e.timestamp = o.timestamp → bytesLt e.contentHash o.contentHash = true →
        mergeEntries o e = o)) ∧
    (∀ (st : DocState) (a k v1 v2 : Bytes), SlotNodup st.entries → ClockBound st →
      slotLookup (setBytes (setBytes st a k v1) a k v2).entries a k
        = some ⟨a, k, hashOf v2, v2.length, st.clock + 2⟩ ∧
      readToBytes (setBytes (setBytes st a k v1) a k v2) (hashOf v2) = some v2 ∧
      slotCount (setBytes (setBytes st a k v1) a k v2).entries a k = 1) := by
  refine ⟨insertEntry_slotNodup, ?_, ?_⟩
  · intro st e o ho
    refine ⟨slotLookup_insert_of_found st e o ho, ?_, ?_, ?_, ?_⟩
    · intro hts
      apply mergeEntries_eq_right
      simp only [supersedes, Bool.or_eq_true, decide_eq_true_eq]
      left
      exact hts
    · intro hts hlt
      apply mergeEntries_eq_right
      simp only [supersedes, Bool.or_eq_true, Bool.and_eq_true, decide_eq_true_eq,
        beq_iff_eq]
      right
      exact ⟨hts, hlt⟩
    · intro hts
      apply mergeEntries_eq_left
      simp only [supersedes, Bool.or_eq_false_iff, Bool.and_eq_false_iff,
        decide_eq_false_iff_not, beq_eq_false_iff_ne, ne_eq]
      exact ⟨by omega, Or.inl (by omega)⟩
    · intro hts hlt
      apply mergeEntries_eq_left
      simp only [supersedes, Bool.or_eq_false_iff, Bool.and_eq_false_iff,
        decide_eq_false_iff_not, beq_eq_false_iff_ne, ne_eq]
      refine ⟨by omega, Or.inr (bytesLt_asymm _ _ hlt)⟩
  · intro st a k v1 v2 hnd hcb
    have hnd1 : SlotNodup (setBytes st a k v1).entries := slotNodup_setBytes st a k v1 hnd
    have hcb1 : ClockBound (setBytes st a k v1) := clockBound_setBytes st a k v1 hcb
    have hlook := slotLookup_setBytes (setBytes st a k v1) a k v2 hcb1
    rw [setBytes_clock] at hlook
    have hnd2 : SlotNodup (setBytes (setBytes st a k v1) a k v2).entries :=
      slotNodup_setBytes _ a k v2 hnd1
    refine ⟨hlook, readToBytes_setBytes _ a k v2, ?_⟩
    have hle := slotCount_le_one _ hnd2 a k
    have hge := slotCount_pos_of_lookup _ a k _ hlook
    omega

/-- Witness: concrete run of the supersession claim on an empty
    document, writing [7, 7] then [8, 8] under one slot. -/
theorem C1_entry_supersession_witness :
    slotLookup (setBytes (setBytes emptyDoc [1] [2] [7, 7]) [1] [2] [8, 8]).entries [1] [2]
      = some ⟨[1], [2], [8, 8], 2, 2⟩ ∧
    readToBytes (setBytes (setBytes emptyDoc [1] [2] [7, 7]) [1] [2] [8, 8]) [8, 8]
      = some [8, 8] ∧
    slotCount (setBytes (setBytes emptyDoc [1] [2] [7, 7]) [1] [2] [8, 8]).entries [1] [2]
      = 1 :=
  C1_entry_supersession.2.2 emptyDoc [1] [2] [7, 7] [8, 8]
    List.Pairwise.nil (fun e he => absurd he (List.not_mem_nil e))

/-- C2: the per-slot merge is idempotent, commutative (on entries of
    one slot under content addressing) and associative, so replicas
    folding the same entries in any arrival order agree on every slot;
    in particular two peers whose writes are exchanged in either order
    converge to the same entry view. -/
theorem C2_merge_crdt :
    (∀ a : Entry, mergeEntries a a = a) ∧
    (∀ a b : Entry, a.author = b.author → a.key = b.key →
      (a.contentHash = b.contentHash → a.contentLen = b.contentLen) →
      mergeEntries a b = mergeEntries b a) ∧
    (∀ a b c : Entry,
      mergeEntries (mergeEntries a b) c = mergeEntries a (mergeEntries b c)) ∧
    (∀ (l1 l2 : List Entry), l1.Perm l2 → ContentAddressed l1 →
      ∀ a k, currentEntry l1 a k = currentEntry l2 a k) ∧
    (∀ (la lb : List Entry), ContentAddressed (la ++ lb) →
      ∀ a k, currentEntry (la ++ lb) a k = currentEntry (lb ++ la) a k) := by
  refine ⟨mergeEntries_idem, mergeEntries_comm, mergeEntries_assoc,
    currentEntry_perm, ?_⟩
  intro la lb hca a k
  exact currentEntry_perm (la ++ lb) (lb ++ la) List.perm_append_comm hca a k

/-- Witness: two writes to distinct slots delivered in either order
    give the same view of each slot. -/
theorem C2_merge_crdt_witness :
    currentEntry [⟨[1], [2], [3], 1, 1⟩, ⟨[4], [5], [6], 1, 1⟩] [1] [2]
      = currentEntry [⟨[4], [5], [6], 1, 1⟩, ⟨[1], [2], [3], 1, 1⟩] [1] [2] ∧
    mergeEntries ⟨[1], [2], [3], 1, 5⟩ ⟨[1], [2], [4], 1, 5⟩
      = mergeEntries ⟨[1], [2], [4], 1, 5⟩ ⟨[1], [2], [3], 1, 5⟩ :=
  ⟨C2_merge_crdt.2.2.2.1 [⟨[1], [2], [3], 1, 1⟩, ⟨[4], [5], [6], 1, 1⟩]
      [⟨[4], [5], [6], 1, 1⟩, ⟨[1], [2], [3], 1, 1⟩] (by decide)
      (by unfold ContentAddressed; decide) [1] [2],
   C2_merge_crdt.2.1 ⟨[1], [2], [3], 1, 5⟩ ⟨[1], [2], [4], 1, 5⟩ rfl rfl (by decide)⟩

/-- C3 counterexample: a query built from options carrying the explicit
    numeric limit 0 reports no limit at all and, run over a one-entry
    store, returns that entry rather than an empty sequence. -/
theorem C3_limit_zero_counterexample :
    (Query.all ⟨SortBy.keyAuthor, SortDirection.asc, 0, 0⟩).limit = none ∧
    runQuery [⟨[1], [2], [3], 1, 1⟩]
        (Query.all ⟨SortBy.keyAuthor, SortDirection.asc, 0, 0⟩)
      = [⟨[1], [2], [3], 1, 1⟩] := by
  constructor
  · rfl
  · rfl

/-- C3 (amended): every query builder translates an explicit numeric
    limit of 0 in the options to an absent limit, i.e. unbounded — there
    is no "return nothing" limit; a query with an absent limit returns
    all matches from the offset onward; and — for any query, bounded or
    not — an offset at or beyond the match count returns an empty
    sequence. -/
theorem C3_query_pagination :
    (∀ o : QueryOptions, o.limit = 0 →
      (Query.all o).limit = none ∧
      (Query.singleLatestPerKey o).limit = none ∧
      (∀ a : Bytes, (Query.author a o).limit = none) ∧
      (∀ k : Bytes, (Query.keyExact k o).limit = none) ∧
      (∀ p : Bytes, (Query.keyPfx p o).limit = none)) ∧
    (∀ (st : List Entry) (q : Query), q.limit = none →
      runQuery st q = (sortEntries (entryLe q) (queryMatches st q)).drop q.offset) ∧
    (∀ (st : List Entry) (q : Query), (queryMatches st q).length ≤ q.offset →
      runQuery st q = []) := by
  refine ⟨?_, ?_, ?_⟩
  · intro o ho
    refine ⟨?_, ?_, fun a => ?_, fun k => ?_, fun p => ?_⟩
    · simp [Query.all, ofOptsLimit, ho]
    · simp [Query.singleLatestPerKey, ofOptsLimit, ho]
    · simp [Query.author, ofOptsLimit, ho]
    · simp [Query.keyExact, ofOptsLimit, ho]
    · simp [Query.keyPfx, ofOptsLimit, ho]
  · intro st q hq
    simp only [runQuery, hq]
  · intro st q hoff
    have hs : (sortEntries (entryLe q) (queryMatches st q)).length ≤ q.offset := by
      rw [length_sortEntries]
      exact hoff
    have hdrop := List.drop_eq_nil_of_le hs
    simp only [runQuery]
    rw [hdrop]
    cases q.limit with
    | none => rfl
    | some l => exact List.take_nil

/-- Witness: concrete pagination runs of the amended claim — a
    single-latest-per-key builder with limit 0 reports no limit, and a
    key-filtered, numerically limited query whose single match is
    skipped by offset 1 (in a two-entry store) returns nothing. -/
theorem C3_query_pagination_witness :
    (Query.singleLatestPerKey ⟨SortBy.keyAuthor, SortDirection.desc, 0, 0⟩).limit = none ∧
    (Query.author [4] ⟨SortBy.keyAuthor, SortDirection.asc, 100, 0⟩).limit = none ∧
    runQuery [⟨[1], [2], [3], 1, 1⟩, ⟨[1], [5], [6], 1, 1⟩]
      (Query.keyExact [2] ⟨SortBy.keyAuthor, SortDirection.asc, 1, 100⟩) = [] :=
  ⟨(C3_query_pagination.1 ⟨SortBy.keyAuthor, SortDirection.desc, 0, 0⟩ rfl).2.1,
   (C3_query_pagination.1 ⟨SortBy.keyAuthor, SortDirection.asc, 100, 0⟩ rfl).2.2.1 [4],
   C3_query_pagination.2.2 [⟨[1], [2], [3], 1, 1⟩, ⟨[1], [5], [6], 1, 1⟩]
     (Query.keyExact [2] ⟨SortBy.keyAuthor, SortDirection.asc, 1, 100⟩)
     (by decide)⟩

/-- C4 counterexample: importing three files into an empty store leaves
    five blobs in list(), not the four (N content blobs plus one root)
    the claim allows: a collection-metadata blob is also created
    (blob_test.py test_blob_collections asserts exactly this extra
    blob). -/
theorem C4_collection_import_counterexample :
    ¬ ((listHashes (importDir ⟨[], [], []⟩ [[1], [2], [3]] [9])).length = 3 + 1) := by
  decide

/-- C4 (amended): importing N distinct files creates exactly the N
    content blobs, one collection-metadata blob and one HASH_SEQ root
    blob enumerating all file hashes (so list() grows by N + 2, not
    N + 1), and list_collections() on the resulting store reports
    total_blobs_count = N + 1 for the collection. -/
theorem C4_collection_import :
    (∀ (st : BlobState) (files : List Bytes) (t : Bytes),
      listHashes (importDir st files t)
        = listHashes st ++ files.map rawBlobHash
          ++ [(importedMeta files).hash, (importedRoot files).hash]) ∧
    (∀ (st : BlobState) (files : List Bytes) (t : Bytes),
      (listHashes (importDir st files t)).length
        = (listHashes st).length + files.length + 2) ∧
    (∀ files : List Bytes, files.Nodup → (files.map rawBlobHash).Nodup) ∧
    (∀ (st : BlobState) (files : List Bytes) (t : Bytes),
      importedRoot files ∈ (importDir st files t).blobs ∧
      (importedRoot files).format = BlobFormat.hashSeq ∧
      ∀ f ∈ files, rawBlobHash f ∈ (importedRoot files).members) ∧
    (∀ (files : List Bytes) (t : Bytes),
      listCollections (importDir ⟨[], [], []⟩ files t)
        = [⟨(importedRoot files).hash, files.length + 1⟩]) := by
  refine ⟨?_, ?_, ?_, ?_, ?_⟩
  · intro st files t
    simp [importDir, listHashes, fileBlob, List.map_map, Function.comp]
  · intro st files t
    simp [importDir, listHashes]
    omega
  · intro files hnd
    apply List.Nodup.map _ hnd
    intro v w hvw
    simpa [rawBlobHash] using hvw
  · intro st files t
    refine ⟨by simp [importDir], rfl, ?_⟩
    intro f hf
    simp only [importedRoot, rootBlobOf]
    exact List.mem_cons.mpr (Or.inr (List.mem_map.mpr ⟨f, hf, rfl⟩))
  · intro files t
    have hfiles : (files.map fileBlob).filter isHashSeq = [] := by
      rw [List.filter_eq_nil_iff]
      intro b hb
      obtain ⟨f, _, rfl⟩ := List.mem_map.mp hb
      simp [fileBlob, isHashSeq]
    simp [importDir, listCollections, List.filter_append, hfiles,
      importedMeta, metaBlobOf, importedRoot, rootBlobOf, isHashSeq]

/-- Witness: a concrete three-file import satisfies the amended
    claim. -/
theorem C4_collection_import_witness :
    (listHashes (importDir ⟨[], [], []⟩ [[1], [2], [3]] [9])).length = 0 + 3 + 2 ∧
    (([[1], [2], [3]] : List Bytes).map rawBlobHash).Nodup ∧
    listCollections (importDir ⟨[], [], []⟩ [[1], [2], [3]] [9])
      = [⟨(importedRoot [[1], [2], [3]]).hash, 3 + 1⟩] :=
  ⟨C4_collection_import.2.1 ⟨[], [], []⟩ [[1], [2], [3]] [9],
   C4_collection_import.2.2.1 [[1], [2], [3]] (by decide),
   C4_collection_import.2.2.2.2 [[1], [2], [3]] [9]⟩

/-- C5 counterexample: the string rendering of the tag built from
    "foo" is the quoted "\"foo\"", so parsing it back gives a tag whose
    bytes carry the quotes — from_string is not an inverse of
    to_string on tags (tag_test.py pins the quoted rendering). -/
theorem C5_tag_roundtrip_counterexample :
    ¬ ((Tag.fromString (Tag.toString (Tag.fromString ['f', 'o', 'o']))).equal
        (Tag.fromString ['f', 'o', 'o']) = true) := by
  decide

/-- C5 (amended): tags round-trip through their byte encoding, and
    from_string stores exactly the string's bytes; but to_string renders
    a quoted debug form, so from_string(to_string(t)) adds quotes and is
    not the identity. -/
theorem C5_tag_roundtrip :
    (∀ t : Tag, (Tag.fromBytes (Tag.toBytes t)).equal t = true) ∧
    (∀ s : List Char, (Tag.fromString s).toBytes = s.map Char.toNat) ∧
    (∀ s : List Char, Tag.toString (Tag.fromString s) = '"' :: s ++ ['"']) := by
  refine ⟨?_, ?_, ?_⟩
  · intro t
    simp [Tag.fromBytes, Tag.toBytes, Tag.equal]
  · intro s
    rfl
  · intro s
    simp only [Tag.toString, Tag.fromString, List.map_map, Function.comp_def]
    rw [List.map_congr_left (fun c _ => Char.ofNat_toNat c)]
    simp

/-- C6: hashes round-trip through their byte and text encodings,
    to_bytes is exactly the raw bytes, hash equality is byte equality,
    and the text round-trips also hold for AuthorId, NamespaceId and
    DocTicket, the latter byte-for-byte through its own parser in both
    directions. -/
theorem C6_hash_id_roundtrips :
    (∀ h : Hash, h.bytes.length = 32 → (∀ b ∈ h.bytes, b < 256) →
      (Hash.fromBytes (Hash.toBytes h)).equal h = true ∧
      Hash.toBytes h = h.bytes ∧
      Hash.fromString (Hash.toString h) = some h) ∧
    (∀ h1 h2 : Hash, Hash.equal h1 h2 = true ↔ h1.bytes = h2.bytes) ∧
    (∀ a : AuthorId, (∀ b ∈ a.bytes, b < 256) →
      AuthorId.fromString (AuthorId.toString a) = some a) ∧
    (∀ n : NamespaceId, (∀ b ∈ n.bytes, b < 256) →
      NamespaceId.fromString (NamespaceId.toString n) = some n) ∧
    (∀ t : DocTicket, (∀ b ∈ t.payload, b < 256) →
      DocTicket.fromString (DocTicket.toString t) = some t) ∧
    (∀ (s : List Char) (t : DocTicket), DocTicket.fromString s = some t →
      DocTicket.toString t = s) := by
  refine ⟨?_, ?_, ?_, ?_, ?_, ?_⟩
  · intro h _ hb
    refine ⟨by simp [Hash.fromBytes, Hash.toBytes, Hash.equal], rfl, ?_⟩
    simp [Hash.fromString, Hash.toString, base32Decode_base32Encode h.bytes hb]
  · intro h1 h2
    simp [Hash.equal, beq_iff_eq]
  · intro a hb
    simp [AuthorId.fromString, AuthorId.toString, base32Decode_base32Encode a.bytes hb]
  · intro n hb
    simp [NamespaceId.fromString, NamespaceId.toString, base32Decode_base32Encode n.bytes hb]
  · intro t hb
    simp only [DocTicket.toString, DocTicket.fromString]
    rw [base32Decode_base32Encode t.payload hb]
    rfl
  · intro s t h
    unfold DocTicket.fromString at h
    split at h
    · rename_i rest
      simp only [Option.map_eq_some'] at h
      obtain ⟨bs, hbs, hmk⟩ := h
      subst hmk
      simp only [DocTicket.toString]
      rw [base32Encode_base32Decode rest bs hbs]
    · simp at h

/-- Witness: concrete round trips of the identifier encodings, at the
    32-byte digest of blob_test.py test_hash and a small ticket. -/
theorem C6_hash_id_roundtrips_witness :
    Hash.fromString (Hash.toString ⟨[0xd2, 0x83, 0x7b, 0x85, 0xc5, 0x85, 0xfb, 0x10,
        0x53, 0xff, 0xb6, 0x40, 0x58, 0xa7, 0x98, 0x6c, 0xd2, 0x1e, 0x19, 0xbc,
        0x72, 0xca, 0xfb, 0x5d, 0x95, 0xd7, 0x93, 0x2f, 0x0e, 0xa7, 0x32, 0x4f]⟩)
      = some ⟨[0xd2, 0x83, 0x7b, 0x85, 0xc5, 0x85, 0xfb, 0x10,
        0x53, 0xff, 0xb6, 0x40, 0x58, 0xa7, 0x98, 0x6c, 0xd2, 0x1e, 0x19, 0xbc,
        0x72, 0xca, 0xfb, 0x5d, 0x95, 0xd7, 0x93, 0x2f, 0x0e, 0xa7, 0x32, 0x4f]⟩ ∧
    AuthorId.fromString (AuthorId.toString ⟨[5, 6, 7]⟩) = some ⟨[5, 6, 7]⟩ ∧
    NamespaceId.fromString (NamespaceId.toString ⟨[8, 9]⟩) = some ⟨[8, 9]⟩ ∧
    DocTicket.fromString (DocTicket.toString ⟨[1, 2, 3]⟩) = some ⟨[1, 2, 3]⟩ ∧
    DocTicket.toString ⟨[1, 2, 3]⟩ = ['d', 'o', 'c', 'a', 'e', 'b', 'a', 'g'] :=
  ⟨(C6_hash_id_roundtrips.1 _ (by decide) (by decide)).2.2,
   C6_hash_id_roundtrips.2.2.1 _ (by decide),
   C6_hash_id_roundtrips.2.2.2.1 _ (by decide),
   C6_hash_id_roundtrips.2.2.2.2.1 _ (by decide),
   C6_hash_id_roundtrips.2.2.2.2.2 ['d', 'o', 'c', 'a', 'e', 'b', 'a', 'g']
     ⟨[1, 2, 3]⟩ (by decide)⟩

/-- Decoding the code points of a string recovers the string. -/
theorem map_ofNat_map_toNat : ∀ s : List Char, (s.map Char.toNat).map Char.ofNat = s
  | [] => rfl
  | c :: rest => by
    simp only [List.map_cons, Char.ofNat_toNat, List.cons.injEq]
    exact ⟨trivial, map_ofNat_map_toNat rest⟩

/-- C7: the path-to-key encoding is prefix + relative-path-under-root
    (or the absolute path without a root) + one NUL byte, and
    key_to_path inverts path_to_key for the shapes no prefix/no root,
    prefix only, and prefix plus root. -/
theorem C7_path_key_roundtrip :
    (∀ (path : List Char), pathToKey path none none = path.map Char.toNat ++ [0]) ∧
    (∀ (path p : List Char),
      pathToKey path (some p) none = (p ++ path).map Char.toNat ++ [0]) ∧
    (∀ (p r rel : List Char),
      pathToKey (r ++ '/' :: rel) (some p) (some r)
        = (p ++ rel).map Char.toNat ++ [0]) ∧
    (∀ path : List Char, keyToPath (pathToKey path none none) none none = some path) ∧
    (∀ (path p : List Char),
      keyToPath (pathToKey path (some p) none) (some p) none = some path) ∧
    (∀ (p r rel : List Char),
      keyToPath (pathToKey (r ++ '/' :: rel) (some p) (some r)) (some p) (some r)
        = some (r ++ '/' :: rel)) := by
  have hshape : ∀ (p r rel : List Char),
      pathToKey (r ++ '/' :: rel) (some p) (some r)
        = (p ++ rel).map Char.toNat ++ [0] := by
    intro p r rel
    have hsplit : r ++ '/' :: rel = (r ++ ['/']) ++ rel := by
      rw [List.append_assoc, List.singleton_append]
    have hpre : (r ++ ['/']).isPrefixOf ((r ++ ['/']) ++ rel) = true :=
      List.isPrefixOf_iff_prefix.mpr (List.prefix_append _ _)
    simp only [pathToKey, hsplit, Option.getD_some]
    rw [if_pos hpre, List.drop_left' (by simp)]
  have hback : ∀ (body : List Char) (p : List Char) (root : Option (List Char)),
      keyToPath ((p ++ body).map Char.toNat ++ [0]) (some p) root
        = some (match root with
                | some r => r ++ '/' :: body
                | none => body) := by
    intro body p root
    unfold keyToPath
    rw [List.getLast?_concat]
    simp only [List.dropLast_concat, Option.getD_some]
    rw [List.map_append,
      if_pos (List.isPrefixOf_iff_prefix.mpr (List.prefix_append _ _)),
      List.drop_left' (by simp), map_ofNat_map_toNat]
  refine ⟨fun path => rfl, fun path p => rfl, hshape, ?_, ?_, ?_⟩
  · intro path
    have h := hback path [] none
    simpa using h
  · intro path p
    exact hback path p none
  · intro p r rel
    rw [hshape]
    exact hback rel p (some r)

/-- C8: deleting a tag leaves the blob readable until the next sweep;
    after one sweep a blob whose sole tag was deleted, that no document
    entry references and that is a member of no stored collection is
    absent from list(); and a blob holding a tag or entry reference at
    sweep time is never deleted. -/
theorem C8_gc_sweep :
    (∀ (st : BlobState) (name h : Bytes),
      blobReadable (deleteTag st name) h = blobReadable st h ∧
      listHashes (deleteTag st name) = listHashes st) ∧
    (∀ (st : BlobState) (b : Blob) (name : Bytes),
      b ∈ st.blobs →
      (∀ t ∈ (deleteTag st name).tags, t.2 ≠ b.hash) →
      b.hash ∉ st.entryRefs →
      (∀ x ∈ st.blobs, b.hash ∉ x.members) →
      b.hash ∉ listHashes (gcSweep (deleteTag st name))) ∧
    (∀ (st : BlobState) (b : Blob), b ∈ st.blobs → b.hash ∈ gcRoots st →
      b.hash ∈ listHashes (gcSweep st)) := by
  refine ⟨fun st name h => ⟨rfl, rfl⟩, ?_, ?_⟩
  · intro st b name hb htags hrefs hmem hcontra
    obtain ⟨b2, hb2, hhash⟩ := List.mem_map.mp hcontra
    have hb2f := List.mem_filter.mp hb2
    have hreach : b2.hash ∈ reachableHashes (deleteTag st name) := by
      have := hb2f.2
      simpa [List.contains, List.elem_eq_mem] using this
    rcases reachIter_mem (deleteTag st name) _ _ hreach with hroot | ⟨h2, hmm⟩
    · rcases List.mem_append.mp hroot with htag | href
      · obtain ⟨t, ht, ht2⟩ := List.mem_map.mp htag
        exact htags t ht (by rw [ht2, hhash])
      · rw [hhash] at href
        exact hrefs href
    · obtain ⟨x, hx, hxm⟩ := mem_membersOf _ _ _ hmm
      rw [hhash] at hxm
      exact hmem x hx hxm
  · intro st b hb hroot
    apply List.mem_map.mpr
    refine ⟨b, List.mem_filter.mpr ⟨hb, ?_⟩, rfl⟩
    have : b.hash ∈ reachableHashes st :=
      roots_subset_reachIter st st.blobs.length b.hash hroot
    simpa [List.contains, List.elem_eq_mem] using this

/-- Witness: a concrete two-blob store; deleting the first blob's sole
    tag keeps it readable before the sweep, the sweep removes it, and
    the still-tagged blob survives. -/
theorem C8_gc_sweep_witness :
    blobReadable (deleteTag ⟨[fileBlob [5], fileBlob [6]],
        [([1], rawBlobHash [5]), ([2], rawBlobHash [6])], []⟩ [1]) (rawBlobHash [5])
      = blobReadable ⟨[fileBlob [5], fileBlob [6]],
        [([1], rawBlobHash [5]), ([2], rawBlobHash [6])], []⟩ (rawBlobHash [5]) ∧
    (fileBlob [5]).hash ∉ listHashes (gcSweep (deleteTag ⟨[fileBlob [5], fileBlob [6]],
        [([1], rawBlobHash [5]), ([2], rawBlobHash [6])], []⟩ [1])) ∧
    (fileBlob [6]).hash ∈ listHashes (gcSweep ⟨[fileBlob [5], fileBlob [6]],
        [([2], rawBlobHash [6])], []⟩) :=
  ⟨(C8_gc_sweep.1 ⟨[fileBlob [5], fileBlob [6]],
      [([1], rawBlobHash [5]), ([2], rawBlobHash [6])], []⟩ [1] (rawBlobHash [5])).1,
   C8_gc_sweep.2.1 ⟨[fileBlob [5], fileBlob [6]],
      [([1], rawBlobHash [5]), ([2], rawBlobHash [6])], []⟩ (fileBlob [5]) [1]
      (by decide) (by decide) (by decide) (by decide),
   C8_gc_sweep.2.2 ⟨[fileBlob [5], fileBlob [6]], [([2], rawBlobHash [6])], []⟩
      (fileBlob [6]) (by decide) (by decide)⟩

/-- C9: in every reachable state of the gossip session, the messages
    delivered at the receiver from sender a, in trace order, followed by
    the still-queued ones, are exactly a's broadcasts in the order sent
    (per-sender FIFO); every Received from a is preceded in the trace by
    a NeighborUp for a; and once the queue has drained every broadcast
    has been delivered as a Received event with that content and
    delivered_from = a. -/
theorem C9_gossip_delivery (a : Bytes) (s : GossipView)
    (h : Relation.ReflTransGen (GossipStep a) gossipInit s) :
    (receivedFrom a s.trace ++ s.pending = s.sent) ∧
    (∀ (pre : List GEvent) (m : Bytes) (post : List GEvent),
      s.trace = pre ++ GEvent.received m a :: post → pre.any (isUpFor a) = true) ∧
    (s.pending = [] → ∀ m ∈ s.sent, GEvent.received m a ∈ s.trace) := by
  obtain ⟨h1, h2, h3⟩ := gossip_reachable_inv a s h
  refine ⟨h3, ?_, ?_⟩
  · intro pre m post htr
    rw [htr] at h2
    exact upBeforeRecv_decomp a pre post m h2
  · intro hpend m hm
    rw [hpend, List.append_nil] at h3
    rw [← h3] at hm
    exact mem_receivedFrom a m s.trace hm

/-- Witness: a concrete session — the receiver sees NeighborUp, the
    sender broadcasts [7], the message is delivered — satisfies the
    delivery claim. -/
theorem C9_gossip_delivery_witness :
    GEvent.received [7] [3] ∈ [GEvent.neighborUp [3], GEvent.received [7] [3]] := by
  have h1 : GossipStep [3] gossipInit ⟨true, [], [], [GEvent.neighborUp [3]]⟩ :=
    GossipStep.up gossipInit rfl
  have h2 : GossipStep [3] ⟨true, [], [], [GEvent.neighborUp [3]]⟩
      ⟨true, [[7]], [[7]], [GEvent.neighborUp [3]]⟩ :=
    GossipStep.broadcast _ [7]
  have h3 : GossipStep [3] ⟨true, [[7]], [[7]], [GEvent.neighborUp [3]]⟩
      ⟨true, [], [[7]], [GEvent.neighborUp [3], GEvent.received [7] [3]]⟩ :=
    GossipStep.deliver _ [7] [] rfl rfl
  have hrun : Relation.ReflTransGen (GossipStep [3]) gossipInit
      ⟨true, [], [[7]], [GEvent.neighborUp [3], GEvent.received [7] [3]]⟩ :=
    Relation.ReflTransGen.tail
      (Relation.ReflTransGen.tail (Relation.ReflTransGen.tail
        Relation.ReflTransGen.refl h1) h2) h3
  exact (C9_gossip_delivery [3] _ hrun).2.2 rfl [7] (by decide)

/-- C10: a fresh node's author registry holds exactly the default
    author; after creating an author, exporting it, deleting it and
    importing the export, the registry again holds both the default and
    the re-imported author, and the exported author's id is the id it
    was exported from. -/
theorem C10_default_author (d n : Bytes) (hne : n ≠ d) :
    (listAuthors (freshNodeAuthors d)).length = 1 ∧
    (listAuthors (createAuthor (freshNodeAuthors d) n)).length = 2 ∧
    exportAuthor (createAuthor (freshNodeAuthors d) n) n = some ⟨n⟩ ∧
    Author.id ⟨n⟩ = n ∧
    (listAuthors (importAuthor
        (deleteAuthor (createAuthor (freshNodeAuthors d) n) n) ⟨n⟩)).length = 2 ∧
    n ∈ listAuthors (importAuthor
        (deleteAuthor (createAuthor (freshNodeAuthors d) n) n) ⟨n⟩) ∧
    d ∈ listAuthors (importAuthor
        (deleteAuthor (createAuthor (freshNodeAuthors d) n) n) ⟨n⟩) := by
  have hnd : (n == d) = false := beq_eq_false_iff_ne.mpr hne
  have hdn : (d == n) = false := beq_eq_false_iff_ne.mpr (fun h => hne h.symm)
  refine ⟨rfl, rfl, ?_, rfl, ?_, ?_, ?_⟩
  · simp [exportAuthor, createAuthor, freshNodeAuthors, listAuthors,
      List.contains, List.elem, hnd, hne]
  · simp [importAuthor, deleteAuthor, createAuthor, freshNodeAuthors,
      listAuthors, Author.id, List.contains, List.elem, hnd, hdn, hne]
  · simp [importAuthor, deleteAuthor, createAuthor, freshNodeAuthors,
      listAuthors, Author.id, List.contains, List.elem, hnd, hdn, hne]
  · simp [importAuthor, deleteAuthor, createAuthor, freshNodeAuthors,
      listAuthors, Author.id, List.contains, List.elem, hnd, hdn, hne]

/-- Witness: the author life cycle at concrete ids. -/
theorem C10_default_author_witness :
    (listAuthors (freshNodeAuthors [1])).length = 1 ∧
    (listAuthors (importAuthor
        (deleteAuthor (createAuthor (freshNodeAuthors [1]) [2]) [2]) ⟨[2]⟩)).length = 2 :=
  ⟨(C10_default_author [1] [2] (by decide)).1,
   (C10_default_author [1] [2] (by decide)).2.2.2.2.1⟩
